import Mathlib

/-!
Verification of the master-dataset reconciliation engine of a trading-ledger
pipeline.  The Python sources embedded here (shallowly) are:
  - config/py/master_data_manager.py  (MasterDataManager)
  - config/py/data_processing.py     (aggregate_split_transactions)
  - config/py/stock_name_overrides.py (identifier override tables and lookups)
  - config/py/utils.py               (complete_stock_name_from_transaction_inference)

DataFrames are modelled as a list of column names plus a list of rows, each
row an association list from column name to an untyped cell value.  Cell
values are exact rationals (pandas floats), strings, dates (days as
integers), null (covering both None and NaN, which pandas treats alike in
isna/merge), and the two IEEE infinities that float division can produce.
-/

/-- A cell value of a dataframe. -/
inductive Value where
  | num (q : ℚ)
  | str (s : String)
  | date (d : ℤ)
  | null
  | pinf
  | ninf
deriving DecidableEq, Repr

/-- A dataframe row: association list from column name to cell value. -/
abbrev Row := List (String × Value)

/-- Column access; a column absent from the row reads as null
(pandas gives NaN for columns introduced by a concat column-union). -/
def Row.get : Row → String → Value
  | [], _ => Value.null
  | (c, v) :: r, k => if c = k then v else Row.get r k

/-- Column assignment: replace the value if the column exists, else append it. -/
def Row.set (r : Row) (c : String) (v : Value) : Row :=
  if r.any (fun p => p.1 = c) then
    r.map (fun p => if p.1 = c then (c, v) else p)
  else
    r ++ [(c, v)]

/-- A dataframe: ordered column names and rows. -/
structure DataFrame where
  cols : List String
  rows : List Row
deriving DecidableEq, Repr

/-- Rows carry only names listed among the frame's columns
(pandas rows always carry exactly the frame's columns). -/
def DataFrame.Wf (df : DataFrame) : Prop :=
  ∀ r ∈ df.rows, ∀ p ∈ r, p.1 ∈ df.cols

/-- pd.concat([a, b]): rows stacked, columns unioned in order of appearance. -/
def concatDF (a b : DataFrame) : DataFrame :=
  ⟨a.cols ++ b.cols.filter (fun c => c ∉ a.cols), a.rows ++ b.rows⟩

/-! Rational arithmetic is written through mkRat / divInt so that every
definition evaluates by kernel reduction; each helper is proved equal to
the corresponding field operation on ℚ below. -/

def qAdd (a b : ℚ) : ℚ := mkRat (a.num * b.den + b.num * a.den) (a.den * b.den)

def qSub (a b : ℚ) : ℚ := mkRat (a.num * b.den - b.num * a.den) (a.den * b.den)

def qMul (a b : ℚ) : ℚ := mkRat (a.num * b.num) (a.den * b.den)

def qDiv (a b : ℚ) : ℚ := Rat.divInt (a.num * b.den) (a.den * b.num)

def qOfInt (k : ℤ) : ℚ := mkRat k 1

def pow10 : ℤ → ℚ
  | Int.ofNat n => mkRat (Int.ofNat (Nat.pow 10 n)) 1
  | Int.negSucc n => mkRat 1 (Nat.pow 10 (n + 1))

/-- Round half to even (numpy / pandas rounding mode) to an integer. -/
def roundHalfEven (q : ℚ) : ℤ :=
  let f := q.floor
  let r := qSub q (qOfInt f)
  if r < mkRat 1 2 then f
  else if mkRat 1 2 < r then f + 1
  else if f % 2 = 0 then f else f + 1

/-- Series.round(d): scale by 10^d, round half to even, scale back.
d may be negative (pandas round(-1) rounds to tens). -/
def roundQ (d : ℤ) (q : ℚ) : ℚ :=
  qDiv (qOfInt (roundHalfEven (qMul q (pow10 d)))) (pow10 d)

/-- pd.to_numeric(_, errors = coerce) on one cell: numbers pass through,
numeric strings parse, anything unparseable becomes null (NaN).
Datetimes map to their integer representation; infinities pass through. -/
def toNumeric : Value → Value
  | Value.num q => Value.num q
  | Value.str s => match s.toNat? with
    | some n => Value.num n
    | none => Value.null
  | Value.date d => Value.num d
  | Value.null => Value.null
  | Value.pinf => Value.pinf
  | Value.ninf => Value.ninf

/-- to_numeric followed by round(d) on one cell. -/
def roundVal (d : ℤ) (v : Value) : Value :=
  match toNumeric v with
  | Value.num q => Value.num (roundQ d q)
  | w => w

/-- Configuration of a MasterDataManager: dedup key columns, numeric
rounding (column, decimals) and date columns. -/
structure Manager where
  keyColumns : List String
  numericRounding : List (String × ℤ)
  dateColumns : List String
deriving Repr

/-- df[col] = to_numeric(df[col]).round(dec) for one configured column. -/
def Row.roundCol (c : String) (d : ℤ) (r : Row) : Row :=
  r.map (fun p => if p.1 = c then (p.1, roundVal d p.2) else p)

/-- The rounding loop over the configuration, on one row; a configured
column is only touched when it is among the frame's columns. -/
def roundRowIn (cfg : List (String × ℤ)) (cols : List String) (r : Row) : Row :=
  cfg.foldl (fun r' p => if p.1 ∈ cols then Row.roundCol p.1 p.2 r' else r') r

/-- MasterDataManager.apply_numeric_rounding. -/
def apply_numeric_rounding (cfg : List (String × ℤ)) (df : DataFrame) : DataFrame :=
  ⟨df.cols, df.rows.map (roundRowIn cfg df.cols)⟩

/-- Minimum of a date column over a row list, skipping nulls and non-date
cells (Series.min skips NaN; none when no date value exists). -/
def minDateList (c : String) : List Row → Option ℤ
  | [] => none
  | r :: rs =>
    match Row.get r c, minDateList c rs with
    | Value.date d, some m => some (min d m)
    | Value.date d, none => some d
    | _, acc => acc

def minDate (df : DataFrame) (c : String) : Option ℤ :=
  minDateList c df.rows

/-- The window predicate df_master[date_col] >= min_date - 90 days; a null
or non-date cell compares false, and a null minimum filters everything out. -/
def windowPass (c0 : String) (mn : Option ℤ) (r : Row) : Bool :=
  match mn, Row.get r c0 with
  | some m, Value.date d => decide (m - 90 ≤ d)
  | _, _ => false

/-- The performance narrowing of the master inside deduplicate: only when
the master exceeds 10000 rows, date columns are configured, and the first
date column is present on both sides. -/
def filterMaster (mgr : Manager) (dfNew dfMaster : DataFrame) : DataFrame :=
  match mgr.dateColumns with
  | [] => dfMaster
  | c0 :: _ =>
    if dfMaster.rows.length > 10000 then
      if c0 ∈ dfNew.cols ∧ c0 ∈ dfMaster.cols then
        { dfMaster with rows := dfMaster.rows.filter (windowPass c0 (minDate dfNew c0)) }
      else dfMaster
    else dfMaster

/-- Key columns absent from either side. -/
def missingKeys (keys : List String) (dfNew dfMaster : DataFrame) : List String :=
  keys.filter (fun c => c ∉ dfNew.cols ∨ c ∉ dfMaster.cols)

/-- Row equality on the key columns; pandas merge matches null keys with
each other, as does structural equality here. -/
def keysMatch (keys : List String) (r m : Row) : Bool :=
  keys.all (fun k => decide (Row.get r k = Row.get m k))

/-- MasterDataManager.deduplicate: round both sides, narrow the master by
the 90-day window when large, bail out to the whole (rounded) batch when a
key column is missing, else anti-join the batch against the master. -/
def deduplicate (mgr : Manager) (dfNew : DataFrame) (dfMaster : Option DataFrame) :
    DataFrame :=
  let dfNewR := apply_numeric_rounding mgr.numericRounding dfNew
  match dfMaster with
  | none => dfNewR
  | some dfM =>
    let dfMR := apply_numeric_rounding mgr.numericRounding dfM
    let dfF := filterMaster mgr dfNewR dfMR
    if missingKeys mgr.keyColumns dfNewR dfF ≠ [] then dfNewR
    else
      { dfNewR with
        rows := dfNewR.rows.filter
          (fun r => !(dfF.rows.any (fun m => keysMatch mgr.keyColumns r m))) }

/-- MasterDataManager.merge_with_master: concat the surviving batch rows
after the existing master; report whether anything changed. -/
def merge_with_master (mgr : Manager) (dfNew : DataFrame)
    (dfMaster : Option DataFrame) : DataFrame × Bool :=
  let u := deduplicate mgr dfNew dfMaster
  if u.rows.length > 0 then
    match dfMaster with
    | some m => (concatDF m u, true)
    | none => (u, true)
  else
    match dfMaster with
    | some m => (m, false)
    | none => (dfNew, false)

example :
    merge_with_master ⟨["k"], [], []⟩ ⟨["k"], [[("k", Value.num 1)]]⟩ none
      = (⟨["k"], [[("k", Value.num 1)]]⟩, true) := by decide

example :
    (merge_with_master ⟨["k"], [], []⟩ ⟨["k"], [[("k", Value.num 1)]]⟩
      (some ⟨["k"], [[("k", Value.num 1)]]⟩)).2 = false := by decide

/-! ## Persistence: save_master_data and load_master_data -/

/-- The three filesystem effects inside save_master_data, in program order. -/
inductive FsOp where
  | backupCopy
  | mkdir
  | writeMaster
deriving DecidableEq, Repr

/-- The body of save_master_data (the try block) under an oracle saying
which filesystem operations raise.  The result is the executed-operation
trace; an error carries the trace up to and including the raising call.
A backup copy is attempted exactly when the master file already exists,
and it precedes the destructive write in program order. -/
def save_master_data_body (fails : FsOp → Bool) (masterExists : Bool) :
    Except (List FsOp) (List FsOp) :=
  if masterExists then
    if fails FsOp.backupCopy then Except.error [FsOp.backupCopy]
    else if fails FsOp.mkdir then Except.error [FsOp.backupCopy, FsOp.mkdir]
    else if fails FsOp.writeMaster then
      Except.error [FsOp.backupCopy, FsOp.mkdir, FsOp.writeMaster]
    else Except.ok [FsOp.backupCopy, FsOp.mkdir, FsOp.writeMaster]
  else
    if fails FsOp.mkdir then Except.error [FsOp.mkdir]
    else if fails FsOp.writeMaster then Except.error [FsOp.mkdir, FsOp.writeMaster]
    else Except.ok [FsOp.mkdir, FsOp.writeMaster]

/-- save_master_data: the body wrapped in the catch-all exception handler;
a raised exception is swallowed and turned into the return value false. -/
def save_master_data (fails : FsOp → Bool) (masterExists : Bool) :
    List FsOp × Bool :=
  match save_master_data_body fails masterExists with
  | Except.ok tr => (tr, true)
  | Except.error tr => (tr, false)

/-- Outcome of attempting to read the master parquet file. -/
inductive LoadOutcome where
  | missing
  | readError
  | ok (df : DataFrame)
deriving Repr

/-- MasterDataManager.load_master_data: None when the file does not exist;
the read (and date conversion) sits in a try block whose handler also
returns None; on success the declared date columns are passed through the
supplied conversion function when one is given. -/
def load_master_data (mgr : Manager) (convert : Option (Value → Value))
    (o : LoadOutcome) : Option DataFrame :=
  match o with
  | LoadOutcome.missing => none
  | LoadOutcome.readError => none
  | LoadOutcome.ok df =>
    match convert with
    | none => some df
    | some f =>
      some (mgr.dateColumns.foldl
        (fun acc c =>
          if c ∈ acc.cols then
            ⟨acc.cols, acc.rows.map (fun r => Row.set r c (f (Row.get r c)))⟩
          else acc)
        df)

/-! ## Cell arithmetic for the aggregation (pandas float semantics) -/

/-- Null test (pandas isna: None and NaN alike). -/
def Value.isNull : Value → Bool
  | Value.null => true
  | _ => false

/-- Series.round on one cell: only finite numbers are rounded. -/
def roundCell (d : ℤ) : Value → Value
  | Value.num q => Value.num (roundQ d q)
  | v => v

/-- Addition of two non-null cells: numbers add, infinities follow IEEE,
strings concatenate (pandas object sum), mixed kinds give null. -/
def addVal : Value → Value → Value
  | Value.num a, Value.num b => Value.num (qAdd a b)
  | Value.num _, Value.pinf => Value.pinf
  | Value.num _, Value.ninf => Value.ninf
  | Value.pinf, Value.num _ => Value.pinf
  | Value.ninf, Value.num _ => Value.ninf
  | Value.pinf, Value.pinf => Value.pinf
  | Value.ninf, Value.ninf => Value.ninf
  | Value.pinf, Value.ninf => Value.null
  | Value.ninf, Value.pinf => Value.null
  | Value.str a, Value.str b => Value.str (a ++ b)
  | _, _ => Value.null

/-- groupby sum: nulls are skipped, an all-null or empty group sums to 0. -/
def sumVal (vs : List Value) : Value :=
  match vs.filter (fun v => !v.isNull) with
  | [] => Value.num 0
  | v :: rest => rest.foldl addVal v

/-- groupby first: the first non-null value of the group, else null. -/
def firstVal (vs : List Value) : Value :=
  match vs.find? (fun v => !v.isNull) with
  | some v => v
  | none => Value.null

/-- Multiplication of cells (null propagates, IEEE signs for infinity). -/
def mulVal : Value → Value → Value
  | Value.num a, Value.num b => Value.num (qMul a b)
  | Value.null, _ => Value.null
  | _, Value.null => Value.null
  | Value.pinf, Value.num b =>
    if b = 0 then Value.null else if 0 < b then Value.pinf else Value.ninf
  | Value.num a, Value.pinf =>
    if a = 0 then Value.null else if 0 < a then Value.pinf else Value.ninf
  | Value.ninf, Value.num b =>
    if b = 0 then Value.null else if 0 < b then Value.ninf else Value.pinf
  | Value.num a, Value.ninf =>
    if a = 0 then Value.null else if 0 < a then Value.ninf else Value.pinf
  | Value.pinf, Value.pinf => Value.pinf
  | Value.ninf, Value.ninf => Value.pinf
  | Value.pinf, Value.ninf => Value.ninf
  | Value.ninf, Value.pinf => Value.ninf
  | _, _ => Value.null

/-- Division of cells as IEEE floats do it: x/0 is NaN when x is 0 or NaN,
and a signed infinity otherwise; no exception is ever raised. -/
def divVal : Value → Value → Value
  | Value.num a, Value.num b =>
    if b = 0 then
      (if a = 0 then Value.null else if 0 < a then Value.pinf else Value.ninf)
    else Value.num (qDiv a b)
  | Value.null, _ => Value.null
  | _, Value.null => Value.null
  | Value.pinf, Value.num b => if b < 0 then Value.ninf else Value.pinf
  | Value.ninf, Value.num b => if b < 0 then Value.pinf else Value.ninf
  | _, _ => Value.null

/-! ## aggregate_split_transactions (data_processing.py) -/

def defaultGroupKeys : List String :=
  ["trade_date", "settlement_date", "ticker", "trade_type", "price_usd"]

def defaultSumColumns : List String :=
  ["quantity", "amount_usd", "fees_usd", "tax_usd",
   "net_amount_usd", "net_amount_jpy", "settlement_amount",
   "amount_jpy", "fees_jpy", "tax_jpy"]

/-- df[c] = f(row): assign a whole column. -/
def setColumn (df : DataFrame) (c : String) (f : Row → Value) : DataFrame :=
  ⟨if c ∈ df.cols then df.cols else df.cols ++ [c],
   df.rows.map (fun r => Row.set r c (f r))⟩

/-- df.drop(columns=[c]). -/
def dropColumn (df : DataFrame) (c : String) : DataFrame :=
  ⟨df.cols.filter (fun x => x ≠ c), df.rows.map (fun r => r.filter (fun p => p.1 ≠ c))⟩

/-- Add a row to the group bearing its key, or open a new group. -/
def insertGroup (k : List Value) (r : Row) :
    List (List Value × List Row) → List (List Value × List Row)
  | [] => [(k, [r])]
  | (k', rs) :: t =>
    if k' = k then (k', rs ++ [r]) :: t else (k', rs) :: insertGroup k r t

/-- groupby(keys, dropna=False): groups of rows sharing the key tuple, in
order of first appearance.  (pandas additionally sorts the output by group
key, which permutes the output rows but not their contents; the properties
proved below do not depend on row order.) -/
def groupRows (keys : List String) (rows : List Row) :
    List (List Value × List Row) :=
  rows.foldl (fun acc r => insertGroup (keys.map (Row.get r)) r acc) []

/-- One aggregated output row: group-key columns carry the key, sum columns
the group sum, first columns the first non-null value, plus the weighted
price accumulator when the weighted-average path is active. -/
def buildAggRow (keys aggSum aggFirst : List String) (weighted : Bool)
    (k : List Value) (g : List Row) : Row :=
  keys.zip k
    ++ aggSum.map (fun c => (c, sumVal (g.map (fun r => Row.get r c))))
    ++ aggFirst.map (fun c => (c, firstVal (g.map (fun r => Row.get r c))))
    ++ (if weighted then
          [("_weighted_price", sumVal (g.map (fun r => Row.get r "_weighted_price")))]
        else [])

/-- The tail of the aggregation: restore price_usd as weighted sum divided
by quantity when the weighted path is active, then drop the helper
columns. -/
def aggregateFinish (agg : DataFrame) (weighted : Bool) : DataFrame :=
  let agg2 :=
    if weighted then
      dropColumn
        (setColumn agg "price_usd"
          (fun r => divVal (Row.get r "_weighted_price") (Row.get r "quantity")))
        "_weighted_price"
    else agg
  if "_price_usd_rounded" ∈ agg2.cols then dropColumn agg2 "_price_usd_rounded" else agg2

/-- data_processing.aggregate_split_transactions. -/
def aggregate_split_transactions (df : DataFrame)
    (group_keys : Option (List String)) (sum_columns : Option (List String))
    (price_round_decimals : ℤ) : DataFrame :=
  if df.rows.length = 0 then df
  else
    let gk := group_keys.getD defaultGroupKeys
    let existing_keys := gk.filter (fun c => c ∈ df.cols)
    if existing_keys = [] then df
    else
      let use_rounded_price : Bool :=
        decide ("price_usd" ∈ existing_keys) && decide ("price_usd" ∈ df.cols)
      let df1 :=
        if use_rounded_price then
          setColumn df "_price_usd_rounded"
            (fun r => roundCell price_round_decimals (Row.get r "price_usd"))
        else df
      let keys2 :=
        if use_rounded_price then
          existing_keys.map (fun k => if k = "price_usd" then "_price_usd_rounded" else k)
        else existing_keys
      let sc := sum_columns.getD defaultSumColumns
      let existing_sum_cols := sc.filter (fun c => c ∈ df1.cols)
      let exclude := keys2 ++ existing_sum_cols ++ ["_price_usd_rounded"]
      let first_cols := df1.cols.filter (fun c => c ∉ exclude)
      let use_weighted : Bool :=
        use_rounded_price && decide ("price_usd" ∈ df1.cols)
          && decide ("quantity" ∈ df1.cols)
      let df2 :=
        if use_weighted then
          setColumn df1 "_weighted_price"
            (fun r => mulVal (Row.get r "price_usd") (Row.get r "quantity"))
        else df1
      let aggSum :=
        if use_weighted then existing_sum_cols.filter (fun c => c ≠ "price_usd")
        else existing_sum_cols
      let aggFirst :=
        if use_weighted then first_cols.filter (fun c => c ≠ "price_usd")
        else first_cols
      aggregateFinish
        ⟨keys2 ++ aggSum ++ aggFirst ++ (if use_weighted then ["_weighted_price"] else []),
         (groupRows keys2 df2.rows).map
           (fun g => buildAggRow keys2 aggSum aggFirst use_weighted g.1 g.2)⟩
        use_weighted

/-! ## Identifier overrides (stock_name_overrides.py) -/

/-- Python str.upper / str.strip modelled over the character list. -/
def strUpper (s : String) : String := String.mk (s.data.map Char.toUpper)

def isSpaceChar (c : Char) : Bool := c = ' ' ∨ c = '\t' ∨ c = '\n' ∨ c = '\r'

def strStrip (s : String) : String :=
  String.mk (((s.data.dropWhile isSpaceChar).reverse.dropWhile isSpaceChar).reverse)

/-- Case-sensitive substring containment (the Python `in` operator). -/
def substrB (pat s : String) : Bool := decide (pat.toList <:+: s.toList)

/-- Entry of the ticker→info table. -/
structure StockInfo where
  stock_name : String
  market : String
deriving DecidableEq, Repr

/-- Entry of the stock-name-pattern→ticker table. -/
structure NameInfo where
  ticker : String
  stock_name : String
  market : String
deriving DecidableEq, Repr

def OLD_TO_NEW_TICKER_MAPPING : List (String × String) := [("TPX", "SGI")]

def TICKER_TO_STOCK_INFO_MAPPING : List (String × StockInfo) :=
  [("SGI", ⟨"Somnigroup", "NYSE"⟩),
   ("TPX", ⟨"Somnigroup", "NYSE"⟩),
   ("HA", ⟨"Hawaiian Holdings, Inc.", "NASDAQ"⟩)]

def TICKER_TO_STOCK_NAME_MAPPING : List (String × String) :=
  TICKER_TO_STOCK_INFO_MAPPING.map (fun p => (p.1, p.2.stock_name))

def STOCK_NAME_TO_TICKER_MAPPING : List (String × NameInfo) :=
  [("テンピュール", ⟨"SGI", "Somnigroup", "NYSE"⟩),
   ("TEMPUR", ⟨"SGI", "Somnigroup", "NYSE"⟩),
   ("SOMNIGROUP", ⟨"SGI", "Somnigroup", "NYSE"⟩)]

/-- The date-ranged mapping is empty in the source. -/
def TICKER_TO_STOCK_NAME_WITH_DATE_RANGE :
    List (String × String × Option ℤ × Option ℤ) := []

/-- normalize_ticker: strip, uppercase, map old tickers to new ones. -/
def normalize_ticker (t : String) : String :=
  if t = "" then ""
  else
    let u := strUpper (strStrip t)
    match List.lookup u OLD_TO_NEW_TICKER_MAPPING with
    | some n => n
    | none => u

/-- get_ticker_override: first pattern of the name table contained
(case-insensitively) in the stock name wins. -/
def get_ticker_override (stock_name : String) : Option String :=
  if stock_name = "" then none
  else
    let u := strUpper (strStrip stock_name)
    match STOCK_NAME_TO_TICKER_MAPPING.find? (fun p => substrB (strUpper p.1) u) with
    | some p => some p.2.ticker
    | none => none

/-- get_market_override. -/
def get_market_override (t : String) : Option String :=
  if t = "" then none
  else
    let n := normalize_ticker (strUpper (strStrip t))
    (List.lookup n TICKER_TO_STOCK_INFO_MAPPING).map (fun i => i.market)

/-- get_stock_name_override: the (empty) date-ranged table first, then the
plain ticker→name table. -/
def get_stock_name_override (t : String) (settlement : Option ℤ) : Option String :=
  if t = "" then none
  else
    let n := normalize_ticker (strUpper (strStrip t))
    match List.lookup n TICKER_TO_STOCK_NAME_WITH_DATE_RANGE with
    | some (nm, sd, ed) =>
      match settlement with
      | none => some nm
      | some dt =>
        if (match sd with | some s => decide (dt < s) | none => false) then none
        else if (match ed with | some e => decide (e < dt) | none => false) then none
        else some nm
    | none => List.lookup n TICKER_TO_STOCK_NAME_MAPPING

/-- A present (truthy, non-blank) optional string, else None. -/
def presentStr (o : Option String) : Option String :=
  match o with
  | some s => if strStrip s ≠ "" then some s else none
  | none => none

/-- Python truthiness of an optional string. -/
def optTruthy (o : Option String) : Bool :=
  match o with
  | some s => s ≠ ""
  | none => false

/-- get_full_stock_info_override: Step A+B (normalize the ticker, then the
ticker→info lookup replaces the stock name when normalizing, and fills the
market only when it is blank), then Step C (infer the ticker from the stock
name and re-run the lookups). -/
def get_full_stock_info_override (ticker stock_name market : Option String)
    (settlement_date : Option ℤ) (normalize_stock_name : Bool) :
    Option String × Option String × Option String :=
  let rt0 := presentStr ticker
  let rs0 := presentStr stock_name
  let rm0 := presentStr market
  let step1 :=
    match rt0 with
    | some t =>
      let t' := normalize_ticker t
      let rs1 :=
        if normalize_stock_name then
          match get_stock_name_override t' settlement_date with
          | some ov => if ov ≠ "" then some ov else rs0
          | none => rs0
        else if optTruthy rs0 then rs0
        else get_stock_name_override t' settlement_date
      let rm1 := if optTruthy rm0 then rm0 else get_market_override t'
      (some t', rs1, rm1)
    | none => (rt0, rs0, rm0)
  let (rt1, rs1, rm1) := step1
  if optTruthy rt1 = false ∧ optTruthy rs1 = true then
    match rs1 with
    | some sn =>
      match get_ticker_override sn with
      | some it =>
        if it ≠ "" then
          let rs2 :=
            if normalize_stock_name then
              match get_stock_name_override it settlement_date with
              | some ov => if ov ≠ "" then some ov else rs1
              | none => rs1
            else rs1
          let rm2 := if optTruthy rm1 then rm1 else get_market_override it
          (some it, rs2, rm2)
        else (rt1, rs1, rm1)
      | none => (rt1, rs1, rm1)
    | none => (rt1, rs1, rm1)
  else (rt1, rs1, rm1)

example :
    get_full_stock_info_override (some "TPX") (some "Tempur Sealy International")
      (some "TSE") none true = (some "SGI", some "Somnigroup", some "TSE") := by decide

example :
    get_full_stock_info_override (some "tpx ") none none none true
      = (some "SGI", some "Somnigroup", some "NYSE") := by decide

/-! ## Fuzzy transaction inference (utils.py) -/

/-- One row of the reference transaction ledger. -/
structure TxRecord where
  ticker : Option String
  stock_name : Option String
  settlement : Option ℤ
  quantity : Option ℚ
  price : Option ℚ
deriving DecidableEq, Repr

/-- Settlement date inside [target - tol, target + tol]; a null date never
qualifies (the notna filter). -/
def dateWindowOk (tol : ℤ) (target : ℤ) (t : TxRecord) : Bool :=
  match t.settlement with
  | some d => decide (target - tol ≤ d ∧ d ≤ target + tol)
  | none => false

/-- Quantity equal or within 10 percent relative tolerance; the filter is
only applied when the target quantity is non-null. -/
def qtyOk (n : Option ℚ) (t : TxRecord) : Bool :=
  match n with
  | none => true
  | some n =>
    match t.quantity with
    | some q => decide (q = n ∨ qDiv |qSub q n| (max |n| 1) ≤ mkRat 1 10)
    | none => false

/-- Unit price within the relative tolerance; applied only when the target
price is non-null and positive, and a null candidate price never passes. -/
def priceOk (ptol : ℚ) (p : Option ℚ) (t : TxRecord) : Bool :=
  match p with
  | none => true
  | some p =>
    if 0 < p then
      match t.price with
      | some c => decide (qDiv |qSub c p| p ≤ ptol)
      | none => false
    else true

/-- Absolute settlement-date distance used for the final idxmin. -/
def dateDistance (target : ℤ) (t : TxRecord) : ℤ :=
  match t.settlement with
  | some d => |d - target|
  | none => 0

/-- idxmin over the date distance: the earliest minimiser wins. -/
def argminDateDistance (target : ℤ) : List TxRecord → Option TxRecord
  | [] => none
  | t :: ts =>
    some (ts.foldl
      (fun best x => if dateDistance target x < dateDistance target best then x else best) t)

/-- The per-record candidate selection of
complete_stock_name_from_transaction_inference: successive date-window,
quantity and price filters over the reference ledger, then the candidate
with minimal date distance; None as soon as a stage leaves no candidate. -/
def transaction_inference_best_match (tol : ℤ) (ptol : ℚ) (targetDate : ℤ)
    (qty price : Option ℚ) (ledger : List TxRecord) : Option TxRecord :=
  let c1 := ledger.filter (dateWindowOk tol targetDate)
  if c1 = [] then none
  else
    let c2 := c1.filter (qtyOk qty)
    if c2 = [] then none
    else
      let c3 := c2.filter (priceOk ptol price)
      if c3 = [] then none
      else argminDateDistance targetDate c3

example :
    transaction_inference_best_match 7 (mkRat 1 100) 0 (some 100) (some 50)
      [⟨some "SOFI", some "SoFi Technologies", some 1, some 100, some (mkRat 501 10)⟩]
      = some ⟨some "SOFI", some "SoFi Technologies", some 1, some 100, some (mkRat 501 10)⟩ := by
  decide

example :
    transaction_inference_best_match 7 (mkRat 1 100) 0 (some 100) (some 50)
      [⟨some "SOFI", some "SoFi Technologies", some 10, some 100, some 50⟩] = none := by
  decide

/-! ## Bridge lemmas: the computable rational helpers agree with the field
operations on ℚ -/

theorem qAdd_eq (a b : ℚ) : qAdd a b = a + b := (Rat.add_def' a b).symm

theorem qSub_eq (a b : ℚ) : qSub a b = a - b := (Rat.sub_def' a b).symm

theorem qMul_eq (a b : ℚ) : qMul a b = a * b := by
  rw [Rat.mul_def, Rat.normalize_eq_mkRat]; rfl

theorem qOfInt_eq (k : ℤ) : qOfInt k = (k : ℚ) := Rat.mkRat_one k

theorem qDiv_eq (a b : ℚ) : qDiv a b = a / b := by
  rw [qDiv, Rat.divInt_eq_div]
  by_cases hb : b = 0
  · subst hb
    simp
  · have hbn : (b.num : ℚ) ≠ 0 := by
      exact_mod_cast Rat.num_ne_zero.mpr hb
    have had : ((a.den : ℚ)) ≠ 0 := by
      exact_mod_cast a.den_nz
    have hbd : ((b.den : ℚ)) ≠ 0 := by
      exact_mod_cast b.den_nz
    conv_rhs => rw [← Rat.num_div_den a, ← Rat.num_div_den b]
    push_cast
    field_simp

theorem pow10_eq (d : ℤ) : pow10 d = (10 : ℚ) ^ d := by
  cases d with
  | ofNat n =>
    show mkRat (Int.ofNat (Nat.pow 10 n)) 1 = _
    rw [Rat.mkRat_one]
    rw [show (Int.ofNat n) = (n : ℤ) from rfl, zpow_natCast]
    rw [show Int.ofNat (Nat.pow 10 n) = ((10 ^ n : ℕ) : ℤ) from rfl]
    push_cast
    rfl
  | negSucc n =>
    show mkRat 1 (Nat.pow 10 (n + 1)) = _
    rw [zpow_negSucc]
    rw [Rat.mkRat_eq_divInt, Rat.divInt_eq_div]
    rw [show Nat.pow 10 (n + 1) = ((10 ^ (n + 1) : ℕ)) from rfl]
    push_cast
    rw [one_div]

theorem ratFloor_eq (q : ℚ) : q.floor = ⌊q⌋ := by
  rw [Rat.floor_def', Rat.floor_def]

theorem mkRat_half_pos : (0 : ℚ) < mkRat 1 2 := by
  rw [Rat.mkRat_eq_divInt, Rat.divInt_eq_div]
  norm_num

theorem roundHalfEven_intCast (k : ℤ) : roundHalfEven (qOfInt k) = k := by
  simp only [roundHalfEven, qOfInt_eq, qSub_eq, ratFloor_eq, Int.floor_intCast, sub_self]
  simp [mkRat_half_pos]

/-- A value already rounded to d decimals is unchanged by rounding again. -/
theorem roundQ_idem (d : ℤ) (q : ℚ) : roundQ d (roundQ d q) = roundQ d q := by
  have h10 : (10 : ℚ) ^ d ≠ 0 := zpow_ne_zero d (by norm_num)
  have harg :
      qMul (roundQ d q) (pow10 d) = qOfInt (roundHalfEven (qMul q (pow10 d))) := by
    rw [roundQ, qMul_eq, qDiv_eq, pow10_eq]
    exact div_mul_cancel₀ _ h10
  conv_lhs => rw [roundQ, harg, roundHalfEven_intCast]
  rw [roundQ]

/-- to_numeric-and-round is idempotent on every cell. -/
theorem roundVal_idem (d : ℤ) (v : Value) : roundVal d (roundVal d v) = roundVal d v := by
  cases v with
  | num q => simp [roundVal, toNumeric, roundQ_idem]
  | str s =>
    rcases h : s.toNat? with _ | n
    · simp [roundVal, toNumeric, h]
    · simp [roundVal, toNumeric, h, roundQ_idem]
  | date d' => simp [roundVal, toNumeric, roundQ_idem]
  | null => simp [roundVal, toNumeric]
  | pinf => simp [roundVal, toNumeric]
  | ninf => simp [roundVal, toNumeric]

/-! ## Structure of the rounding loop on rows -/

/-- The net effect of the rounding loop on a single cell of column c. -/
def chainR (cfg : List (String × ℤ)) (cols : List String) (c : String) (v : Value) : Value :=
  cfg.foldl (fun w p => if p.1 = c ∧ p.1 ∈ cols then roundVal p.2 w else w) v

theorem chainR_cons (q : String × ℤ) (cfg : List (String × ℤ)) (cols : List String)
    (c : String) (v : Value) :
    chainR (q :: cfg) cols c v
      = chainR cfg cols c (if q.1 = c ∧ q.1 ∈ cols then roundVal q.2 v else v) := rfl

theorem roundRowIn_cons (q : String × ℤ) (cfg : List (String × ℤ)) (cols : List String)
    (r : Row) :
    roundRowIn (q :: cfg) cols r
      = roundRowIn cfg cols (if q.1 ∈ cols then Row.roundCol q.1 q.2 r else r) := rfl

theorem roundVal_null (d : ℤ) : roundVal d Value.null = Value.null := rfl

theorem chainR_null (cfg : List (String × ℤ)) (cols : List String) (c : String) :
    chainR cfg cols c Value.null = Value.null := by
  induction cfg with
  | nil => rfl
  | cons q cfg ih =>
    rw [chainR_cons]
    split
    · rw [roundVal_null, ih]
    · exact ih

theorem chainR_not_key {cfg : List (String × ℤ)} {c : String}
    (h : c ∉ cfg.map Prod.fst) (cols : List String) (v : Value) :
    chainR cfg cols c v = v := by
  induction cfg generalizing v with
  | nil => rfl
  | cons q cfg ih =>
    have hq : q.1 ≠ c := by
      intro he
      exact h (by simp [he])
    rw [chainR_cons, if_neg (by simp [hq])]
    exact ih (by intro hm; exact h (by simp [hm])) v

theorem chainR_congr {c : String} {cols₁ cols₂ : List String}
    (h1 : c ∈ cols₁) (h2 : c ∈ cols₂) (cfg : List (String × ℤ)) (v : Value) :
    chainR cfg cols₁ c v = chainR cfg cols₂ c v := by
  induction cfg generalizing v with
  | nil => rfl
  | cons q cfg ih =>
    rw [chainR_cons, chainR_cons]
    by_cases hqc : q.1 = c
    · subst hqc
      rw [if_pos ⟨rfl, h1⟩, if_pos ⟨rfl, h2⟩]
      exact ih _
    · rw [if_neg (by simp [hqc]), if_neg (by simp [hqc])]
      exact ih v

theorem chainR_stable {cfg : List (String × ℤ)} {c : String} {cols₁ cols₂ : List String}
    (hnodup : (cfg.map Prod.fst).Nodup) (h1 : c ∈ cols₁) (h2 : c ∈ cols₂) (v : Value) :
    chainR cfg cols₂ c (chainR cfg cols₁ c v) = chainR cfg cols₁ c v := by
  induction cfg generalizing v with
  | nil => rfl
  | cons q cfg ih =>
    rw [List.map_cons] at hnodup
    have hqmem : q.1 ∉ cfg.map Prod.fst := (List.nodup_cons.mp hnodup).1
    have hnd : (cfg.map Prod.fst).Nodup := (List.nodup_cons.mp hnodup).2
    by_cases hqc : q.1 = c
    · subst hqc
      have hinner : chainR (q :: cfg) cols₁ q.1 v = roundVal q.2 v := by
        rw [chainR_cons, if_pos ⟨rfl, h1⟩, chainR_not_key hqmem]
      rw [hinner, chainR_cons, if_pos ⟨rfl, h2⟩, roundVal_idem, chainR_not_key hqmem]
    · have hinner : chainR (q :: cfg) cols₁ c v = chainR cfg cols₁ c v := by
        rw [chainR_cons, if_neg (fun h => hqc h.1)]
      rw [hinner, chainR_cons, if_neg (fun h => hqc h.1)]
      exact ih hnd _

theorem roundRowIn_repr (cfg : List (String × ℤ)) (cols : List String) (r : Row) :
    roundRowIn cfg cols r = r.map (fun p => (p.1, chainR cfg cols p.1 p.2)) := by
  induction cfg generalizing r with
  | nil =>
    show r = _
    simp [chainR]
  | cons q cfg ih =>
    rw [roundRowIn_cons]
    by_cases hq : q.1 ∈ cols
    · rw [if_pos hq, ih, Row.roundCol, List.map_map]
      apply List.map_congr_left
      intro p _
      simp only [Function.comp_apply]
      by_cases hpq : p.1 = q.1
      · rw [if_pos hpq, chainR_cons, if_pos ⟨hpq.symm, hq⟩]
      · rw [if_neg hpq, chainR_cons, if_neg (fun h => hpq h.1.symm)]
    · rw [if_neg hq, ih]
      apply List.map_congr_left
      intro p _
      rw [chainR_cons, if_neg (fun h => hq h.2)]

theorem get_roundRowIn (cfg : List (String × ℤ)) (cols : List String) (r : Row)
    (c : String) :
    Row.get (roundRowIn cfg cols r) c = chainR cfg cols c (Row.get r c) := by
  rw [roundRowIn_repr]
  induction r with
  | nil => simp [Row.get, chainR_null]
  | cons p r ih =>
    obtain ⟨a, v⟩ := p
    by_cases ha : a = c
    · subst ha
      simp [Row.get]
    · simp [Row.get, ha, ih]

theorem roundRowIn_fst (cfg : List (String × ℤ)) (cols : List String) (r : Row) :
    (roundRowIn cfg cols r).map Prod.fst = r.map Prod.fst := by
  rw [roundRowIn_repr, List.map_map]
  rfl

theorem roundRowIn_stable {cfg : List (String × ℤ)} {cols₁ cols₂ : List String} {r : Row}
    (hnodup : (cfg.map Prod.fst).Nodup)
    (hnames : ∀ p ∈ r, p.1 ∈ cols₁) (hnames2 : ∀ p ∈ r, p.1 ∈ cols₂) :
    roundRowIn cfg cols₂ (roundRowIn cfg cols₁ r) = roundRowIn cfg cols₁ r := by
  rw [roundRowIn_repr cfg cols₁ r]
  rw [roundRowIn_repr cfg cols₂, List.map_map]
  apply List.map_congr_left
  intro p hp
  simp only [Function.comp]
  rw [chainR_stable hnodup (hnames p hp) (hnames2 p hp)]

theorem roundRowIn_congr {cols₁ cols₂ : List String} {r : Row}
    (hnames : ∀ p ∈ r, p.1 ∈ cols₁) (hnames2 : ∀ p ∈ r, p.1 ∈ cols₂)
    (cfg : List (String × ℤ)) :
    roundRowIn cfg cols₁ r = roundRowIn cfg cols₂ r := by
  rw [roundRowIn_repr, roundRowIn_repr]
  apply List.map_congr_left
  intro p hp
  rw [chainR_congr (hnames p hp) (hnames2 p hp)]

theorem keysMatch_self (keys : List String) (r : Row) : keysMatch keys r r = true := by
  simp [keysMatch]

theorem minDateList_le {c : String} {rows : List Row} {r : Row} {d : ℤ}
    (hr : r ∈ rows) (hd : Row.get r c = Value.date d) :
    ∃ m, minDateList c rows = some m ∧ m ≤ d := by
  induction rows with
  | nil => cases hr
  | cons r0 rows ih =>
    rcases List.mem_cons.mp hr with hr | hr
    · subst hr
      rw [minDateList, hd]
      rcases hacc : minDateList c rows with _ | m
      · exact ⟨d, rfl, le_refl d⟩
      · exact ⟨min d m, rfl, min_le_left d m⟩
    · obtain ⟨m, hm, hle⟩ := ih hr
      rw [minDateList, hm]
      rcases hg : Row.get r0 c with q | s | d0 | _ | _ | _
      · exact ⟨m, rfl, hle⟩
      · exact ⟨m, rfl, hle⟩
      · exact ⟨min d0 m, rfl, le_trans (min_le_right d0 m) hle⟩
      · exact ⟨m, rfl, hle⟩
      · exact ⟨m, rfl, hle⟩
      · exact ⟨m, rfl, hle⟩

/-! ## Unfolding lemmas for the merge pipeline -/

theorem apply_rows (cfg : List (String × ℤ)) (df : DataFrame) :
    (apply_numeric_rounding cfg df).rows = df.rows.map (roundRowIn cfg df.cols) := rfl

theorem apply_cols (cfg : List (String × ℤ)) (df : DataFrame) :
    (apply_numeric_rounding cfg df).cols = df.cols := rfl

theorem apply_len (cfg : List (String × ℤ)) (df : DataFrame) :
    (apply_numeric_rounding cfg df).rows.length = df.rows.length := by
  rw [apply_rows, List.length_map]

theorem concatDF_rows (a b : DataFrame) : (concatDF a b).rows = a.rows ++ b.rows := rfl

theorem mem_concat_cols_left {a b : DataFrame} {c : String} (h : c ∈ a.cols) :
    c ∈ (concatDF a b).cols := by
  show c ∈ a.cols ++ _
  exact List.mem_append_left _ h

theorem mem_concat_cols_right {a b : DataFrame} {c : String} (h : c ∈ b.cols) :
    c ∈ (concatDF a b).cols := by
  show c ∈ a.cols ++ _
  by_cases ha : c ∈ a.cols
  · exact List.mem_append_left _ ha
  · refine List.mem_append_right _ ?_
    refine List.mem_filter.mpr ⟨h, ?_⟩
    simpa using ha

theorem filterMaster_cols (mgr : Manager) (a b : DataFrame) :
    (filterMaster mgr a b).cols = b.cols := by
  unfold filterMaster
  rcases mgr.dateColumns with _ | ⟨c0, rest⟩
  · rfl
  · dsimp only
    split_ifs <;> rfl

theorem filterMaster_mem {mgr : Manager} {a b : DataFrame} {r : Row}
    (h : r ∈ (filterMaster mgr a b).rows) : r ∈ b.rows := by
  unfold filterMaster at h
  rcases hdc : mgr.dateColumns with _ | ⟨c0, rest⟩ <;> rw [hdc] at h
  · exact h
  · dsimp only at h
    split_ifs at h
    · exact (List.mem_filter.mp h).1
    · exact h
    · exact h

theorem filterMaster_shape (mgr : Manager) (a b : DataFrame) :
    filterMaster mgr a b = b ∨
    ∃ c0 rest, mgr.dateColumns = c0 :: rest ∧ b.rows.length > 10000 ∧
      c0 ∈ a.cols ∧ c0 ∈ b.cols ∧
      filterMaster mgr a b =
        { b with rows := b.rows.filter (windowPass c0 (minDate a c0)) } := by
  unfold filterMaster
  rcases hdc : mgr.dateColumns with _ | ⟨c0, rest⟩
  · exact Or.inl rfl
  · dsimp only
    split_ifs with hlen hc
    · exact Or.inr ⟨c0, rest, rfl, hlen, hc.1, hc.2, rfl⟩
    · exact Or.inl rfl
    · exact Or.inl rfl

theorem missingKeys_nil {keys : List String} {a b : DataFrame}
    (h1 : ∀ c ∈ keys, c ∈ a.cols) (h2 : ∀ c ∈ keys, c ∈ b.cols) :
    missingKeys keys a b = [] := by
  refine List.filter_eq_nil_iff.mpr ?_
  intro c hc
  simp [h1 c hc, h2 c hc]

theorem dedup_none (mgr : Manager) (dfNew : DataFrame) :
    deduplicate mgr dfNew none = apply_numeric_rounding mgr.numericRounding dfNew := rfl

theorem dedup_some_of_missing {mgr : Manager} {dfNew dfM : DataFrame}
    (h : missingKeys mgr.keyColumns (apply_numeric_rounding mgr.numericRounding dfNew)
      (filterMaster mgr (apply_numeric_rounding mgr.numericRounding dfNew)
        (apply_numeric_rounding mgr.numericRounding dfM)) ≠ []) :
    deduplicate mgr dfNew (some dfM) = apply_numeric_rounding mgr.numericRounding dfNew := by
  unfold deduplicate
  simp only [h, ne_eq, not_false_eq_true, if_true]

theorem dedup_some_of_keys {mgr : Manager} {dfNew dfM : DataFrame}
    (h : missingKeys mgr.keyColumns (apply_numeric_rounding mgr.numericRounding dfNew)
      (filterMaster mgr (apply_numeric_rounding mgr.numericRounding dfNew)
        (apply_numeric_rounding mgr.numericRounding dfM)) = []) :
    deduplicate mgr dfNew (some dfM) =
      { apply_numeric_rounding mgr.numericRounding dfNew with
        rows := (apply_numeric_rounding mgr.numericRounding dfNew).rows.filter
          (fun r => !((filterMaster mgr (apply_numeric_rounding mgr.numericRounding dfNew)
              (apply_numeric_rounding mgr.numericRounding dfM)).rows.any
            (fun mr => keysMatch mgr.keyColumns r mr))) } := by
  unfold deduplicate
  simp only [h, ne_eq, not_true_eq_false, if_false]

theorem merge_some_of_empty {mgr : Manager} {dfNew dfM : DataFrame}
    (h : (deduplicate mgr dfNew (some dfM)).rows = []) :
    merge_with_master mgr dfNew (some dfM) = (dfM, false) := by
  unfold merge_with_master
  simp only [h, List.length_nil, gt_iff_lt, lt_self_iff_false, if_false]

theorem merge_none_of_empty {mgr : Manager} {dfNew : DataFrame}
    (h : (deduplicate mgr dfNew none).rows = []) :
    merge_with_master mgr dfNew none = (dfNew, false) := by
  unfold merge_with_master
  simp only [h, List.length_nil, gt_iff_lt, lt_self_iff_false, if_false]

theorem merge_some_of_ne {mgr : Manager} {dfNew dfM : DataFrame}
    (h : (deduplicate mgr dfNew (some dfM)).rows ≠ []) :
    merge_with_master mgr dfNew (some dfM)
      = (concatDF dfM (deduplicate mgr dfNew (some dfM)), true) := by
  unfold merge_with_master
  have : 0 < (deduplicate mgr dfNew (some dfM)).rows.length := List.length_pos.mpr h
  simp only [gt_iff_lt, this, if_true]

theorem merge_none_of_ne {mgr : Manager} {dfNew : DataFrame}
    (h : (deduplicate mgr dfNew none).rows ≠ []) :
    merge_with_master mgr dfNew none = (deduplicate mgr dfNew none, true) := by
  unfold merge_with_master
  have : 0 < (deduplicate mgr dfNew none).rows.length := List.length_pos.mpr h
  simp only [gt_iff_lt, this, if_true]

theorem names_of_rounded {cfg : List (String × ℤ)} {df : DataFrame} {b : Row}
    (hWf : df.Wf) (hb : b ∈ (apply_numeric_rounding cfg df).rows) :
    ∀ p ∈ b, p.1 ∈ df.cols := by
  rw [apply_rows] at hb
  obtain ⟨b₀, hb₀, rfl⟩ := List.mem_map.mp hb
  intro p hp
  have : p.1 ∈ (roundRowIn cfg df.cols b₀).map Prod.fst := List.mem_map_of_mem _ hp
  rw [roundRowIn_fst] at this
  obtain ⟨p₀, hp₀, he⟩ := List.mem_map.mp this
  exact he ▸ hWf b₀ hb₀ p₀ hp₀

theorem dedup_cols (mgr : Manager) (dfNew : DataFrame) (dfM : Option DataFrame) :
    (deduplicate mgr dfNew dfM).cols = dfNew.cols := by
  rcases dfM with _ | m
  · rfl
  · unfold deduplicate
    dsimp only
    split_ifs <;> rfl

theorem filterMaster_eq_of {mgr : Manager} {a b : DataFrame} {c0 : String}
    {rest : List String} (hdc : mgr.dateColumns = c0 :: rest)
    (hlen : b.rows.length > 10000) (hca : c0 ∈ a.cols) (hcb : c0 ∈ b.cols) :
    filterMaster mgr a b
      = { b with rows := b.rows.filter (windowPass c0 (minDate a c0)) } := by
  unfold filterMaster
  rw [hdc]
  dsimp only
  rw [if_pos hlen, if_pos ⟨hca, hcb⟩]

/-- Once the first merge has absorbed the batch, a second deduplication of
the same batch against the merged master removes every row: each rounded
batch row finds a key match inside the (possibly window-narrowed) master. -/
theorem dedup_second_empty (mgr : Manager) (B M₁ : DataFrame)
    (hkeys : ∀ c ∈ mgr.keyColumns, c ∈ B.cols)
    (hcols : ∀ c ∈ B.cols, c ∈ M₁.cols)
    (hmatch : ∀ b ∈ (apply_numeric_rounding mgr.numericRounding B).rows,
      ∃ mr, mr ∈ (apply_numeric_rounding mgr.numericRounding M₁).rows ∧
        keysMatch mgr.keyColumns b mr = true ∧
        (∀ c0 rest, mgr.dateColumns = c0 :: rest → c0 ∈ B.cols →
          M₁.rows.length > 10000 →
          windowPass c0 (minDate (apply_numeric_rounding mgr.numericRounding B) c0) mr
            = true)) :
    (deduplicate mgr B (some M₁)).rows = [] := by
  have hmiss : missingKeys mgr.keyColumns
      (apply_numeric_rounding mgr.numericRounding B)
      (filterMaster mgr (apply_numeric_rounding mgr.numericRounding B)
        (apply_numeric_rounding mgr.numericRounding M₁)) = [] := by
    apply missingKeys_nil
    · intro c hc
      rw [apply_cols]
      exact hkeys c hc
    · intro c hc
      rw [filterMaster_cols, apply_cols]
      exact hcols c (hkeys c hc)
  rw [dedup_some_of_keys hmiss]
  refine List.filter_eq_nil_iff.mpr ?_
  intro b hb
  obtain ⟨mr, hmrR, hkm, hwin⟩ := hmatch b hb
  have hmrF : mr ∈ (filterMaster mgr (apply_numeric_rounding mgr.numericRounding B)
      (apply_numeric_rounding mgr.numericRounding M₁)).rows := by
    rcases filterMaster_shape mgr (apply_numeric_rounding mgr.numericRounding B)
        (apply_numeric_rounding mgr.numericRounding M₁) with hsh |
        ⟨c0, rest, hdc, hlen, hca, _, hsh⟩
    · rw [hsh]
      exact hmrR
    · rw [hsh]
      refine List.mem_filter.mpr ⟨hmrR, ?_⟩
      refine hwin c0 rest hdc ?_ ?_
      · rw [apply_cols] at hca
        exact hca
      · rw [apply_len] at hlen
        exact hlen
  have hany : ((filterMaster mgr (apply_numeric_rounding mgr.numericRounding B)
      (apply_numeric_rounding mgr.numericRounding M₁)).rows.any
        (fun m2 => keysMatch mgr.keyColumns b m2)) = true :=
    List.any_eq_true.mpr ⟨mr, hmrF, hkm⟩
  simp [hany]

/-- C1 (amended): merging the same batch a second time against the merged
master returns the merged master unchanged with changed = false, provided
the rounding configuration has no duplicate column, batch and master are
well-formed frames, every dedup key column is present in the batch, every
rounded batch row carries a proper date in the first configured date column
(when one applies), and a merged master large enough to trigger the 90-day
window narrowing implies the original master already triggered it. -/
theorem merge_with_master_idempotent (mgr : Manager) (M : Option DataFrame) (B : DataFrame)
    (hnodup : (mgr.numericRounding.map Prod.fst).Nodup)
    (hWfB : B.Wf)
    (hWfM : ∀ df, M = some df → df.Wf)
    (hkeys : ∀ c ∈ mgr.keyColumns, c ∈ B.cols)
    (hdate : ∀ c0, mgr.dateColumns.head? = some c0 → c0 ∈ B.cols →
      ∀ r ∈ (apply_numeric_rounding mgr.numericRounding B).rows,
        ∃ d, Row.get r c0 = Value.date d)
    (hgrow : ∀ c0, mgr.dateColumns.head? = some c0 → c0 ∈ B.cols →
      (merge_with_master mgr B M).1.rows.length > 10000 →
      ∃ m, M = some m ∧ m.rows.length > 10000 ∧ c0 ∈ m.cols) :
    merge_with_master mgr B (some (merge_with_master mgr B M).1)
      = ((merge_with_master mgr B M).1, false) := by
  classical
  by_cases hu : (deduplicate mgr B M).rows = []
  · rcases M with _ | m
    · have hBrows : B.rows = [] := by
        rw [dedup_none, apply_rows] at hu
        exact List.map_eq_nil_iff.mp hu
      rw [merge_none_of_empty hu]
      apply merge_some_of_empty
      apply dedup_second_empty mgr B B hkeys (fun c hc => hc)
      intro b hb
      rw [apply_rows, hBrows] at hb
      cases hb
    · rw [merge_some_of_empty hu]
      exact merge_some_of_empty hu
  · rcases M with _ | m
    · -- cold start: the merged master is the rounded batch itself
      rw [merge_none_of_ne hu, dedup_none]
      apply merge_some_of_empty
      apply dedup_second_empty mgr B _ hkeys
      · intro c hc
        rw [apply_cols]
        exact hc
      · intro b hb
        obtain ⟨b₀, hb₀, hbeq⟩ := List.mem_map.mp (by rw [apply_rows] at hb; exact hb)
        have hnames : ∀ p ∈ b₀, p.1 ∈ B.cols := hWfB b₀ hb₀
        have hstable : roundRowIn mgr.numericRounding
            (apply_numeric_rounding mgr.numericRounding B).cols b = b := by
          rw [apply_cols, ← hbeq]
          exact roundRowIn_stable hnodup hnames hnames
        refine ⟨b, ?_, keysMatch_self _ _, ?_⟩
        · rw [apply_rows]
          rw [show (apply_numeric_rounding mgr.numericRounding B).rows
              = (apply_numeric_rounding mgr.numericRounding B).rows from rfl] at hb
          exact hstable ▸ List.mem_map_of_mem _ hb
        · intro c0 rest hdc hc0 _
          obtain ⟨d, hd⟩ := hdate c0 (by rw [hdc]; rfl) hc0 b hb
          obtain ⟨mm, hmm, hle⟩ := minDateList_le hb hd
          show windowPass c0 (minDate _ c0) b = true
          rw [minDate] at *
          simp only [windowPass, hmm, hd]
          have : mm - 90 ≤ d := by omega
          simp [this]
    · -- warm master
      rw [merge_some_of_ne hu]
      apply merge_some_of_empty
      set u := deduplicate mgr B (some m) with hudef
      have hucols : u.cols = B.cols := dedup_cols mgr B (some m)
      apply dedup_second_empty mgr B (concatDF m u) hkeys
      · intro c hc
        exact mem_concat_cols_right (by rw [hucols]; exact hc)
      · intro b hb
        -- either b survived into u (its own copy is in the concat), or it was
        -- dropped against a key match in the narrowed master
        have hcopy : b ∈ u.rows →
            ∃ mr, mr ∈ (apply_numeric_rounding mgr.numericRounding (concatDF m u)).rows ∧
              keysMatch mgr.keyColumns b mr = true ∧
              (∀ c0 rest, mgr.dateColumns = c0 :: rest → c0 ∈ B.cols →
                (concatDF m u).rows.length > 10000 →
                windowPass c0 (minDate (apply_numeric_rounding mgr.numericRounding B) c0) mr
                  = true) := by
          intro hbu
          obtain ⟨b₀, hb₀, hbeq⟩ := List.mem_map.mp (by rw [apply_rows] at hb; exact hb)
          have hnames : ∀ p ∈ b₀, p.1 ∈ B.cols := hWfB b₀ hb₀
          have hnames2 : ∀ p ∈ b₀, p.1 ∈ (concatDF m u).cols := fun p hp =>
            mem_concat_cols_right (by rw [hucols]; exact hnames p hp)
          have hstable : roundRowIn mgr.numericRounding (concatDF m u).cols b = b := by
            rw [← hbeq]
            exact roundRowIn_stable hnodup hnames hnames2
          refine ⟨b, ?_, keysMatch_self _ _, ?_⟩
          · rw [apply_rows]
            have hbM : b ∈ (concatDF m u).rows := by
              rw [concatDF_rows]
              exact List.mem_append_right _ hbu
            exact hstable ▸ List.mem_map_of_mem _ hbM
          · intro c0 rest hdc hc0 _
            obtain ⟨d, hd⟩ := hdate c0 (by rw [hdc]; rfl) hc0 b hb
            obtain ⟨mm, hmm, hle⟩ := minDateList_le hb hd
            show windowPass c0 (minDate _ c0) b = true
            simp only [windowPass, minDate, hmm, hd]
            have : mm - 90 ≤ d := by omega
            simp [this]
        have hdropped : ∀ mr1, mr1 ∈ (filterMaster mgr
              (apply_numeric_rounding mgr.numericRounding B)
              (apply_numeric_rounding mgr.numericRounding m)).rows →
            keysMatch mgr.keyColumns b mr1 = true →
            ∃ mr, mr ∈ (apply_numeric_rounding mgr.numericRounding (concatDF m u)).rows ∧
              keysMatch mgr.keyColumns b mr = true ∧
              (∀ c0 rest, mgr.dateColumns = c0 :: rest → c0 ∈ B.cols →
                (concatDF m u).rows.length > 10000 →
                windowPass c0 (minDate (apply_numeric_rounding mgr.numericRounding B) c0) mr
                  = true) := by
          intro mr1 hmr1F hkm
          have hmr1R : mr1 ∈ (apply_numeric_rounding mgr.numericRounding m).rows :=
            filterMaster_mem hmr1F
          obtain ⟨m₀, hm₀, hmeq⟩ := List.mem_map.mp (by rw [apply_rows] at hmr1R; exact hmr1R)
          have hnamesM : ∀ p ∈ m₀, p.1 ∈ m.cols := hWfM m rfl m₀ hm₀
          have hnamesM2 : ∀ p ∈ m₀, p.1 ∈ (concatDF m u).cols := fun p hp =>
            mem_concat_cols_left (hnamesM p hp)
          have hcongr : roundRowIn mgr.numericRounding (concatDF m u).cols m₀ = mr1 := by
            rw [← hmeq]
            exact (roundRowIn_congr hnamesM2 hnamesM mgr.numericRounding).symm ▸ rfl
          refine ⟨mr1, ?_, hkm, ?_⟩
          · rw [apply_rows]
            have hmM : m₀ ∈ (concatDF m u).rows := by
              rw [concatDF_rows]
              exact List.mem_append_left _ hm₀
            exact hcongr ▸ List.mem_map_of_mem _ hmM
          · intro c0 rest hdc hc0 hlen2
            have hlen1 : (merge_with_master mgr B (some m)).1.rows.length > 10000 := by
              rw [merge_some_of_ne hu]
              exact hlen2
            obtain ⟨m', hm', hlenM, hc0m⟩ := hgrow c0 (by rw [hdc]; rfl) hc0 hlen1
            injection hm' with h
            subst h
            have hfil : filterMaster mgr (apply_numeric_rounding mgr.numericRounding B)
                (apply_numeric_rounding mgr.numericRounding m)
                = { apply_numeric_rounding mgr.numericRounding m with
                    rows := (apply_numeric_rounding mgr.numericRounding m).rows.filter
                      (windowPass c0
                        (minDate (apply_numeric_rounding mgr.numericRounding B) c0)) } := by
              refine filterMaster_eq_of hdc ?_ ?_ ?_
              · rw [apply_len]
                exact hlenM
              · rw [apply_cols]
                exact hc0
              · rw [apply_cols]
                exact hc0m
            rw [hfil] at hmr1F
            exact (List.mem_filter.mp hmr1F).2
        by_cases hmiss : missingKeys mgr.keyColumns
            (apply_numeric_rounding mgr.numericRounding B)
            (filterMaster mgr (apply_numeric_rounding mgr.numericRounding B)
              (apply_numeric_rounding mgr.numericRounding m)) = []
        · have hurows : u.rows = (apply_numeric_rounding mgr.numericRounding B).rows.filter
              (fun r => !((filterMaster mgr (apply_numeric_rounding mgr.numericRounding B)
                  (apply_numeric_rounding mgr.numericRounding m)).rows.any
                (fun mr => keysMatch mgr.keyColumns r mr))) := by
            rw [hudef, dedup_some_of_keys hmiss]
          by_cases hsurv : ((filterMaster mgr (apply_numeric_rounding mgr.numericRounding B)
              (apply_numeric_rounding mgr.numericRounding m)).rows.any
                (fun mr => keysMatch mgr.keyColumns b mr)) = true
          · obtain ⟨mr1, hmr1, hkm⟩ := List.any_eq_true.mp hsurv
            exact hdropped mr1 hmr1 hkm
          · have hbu : b ∈ u.rows := by
              rw [hurows]
              refine List.mem_filter.mpr ⟨hb, ?_⟩
              simp [hsurv]
            exact hcopy hbu
        · have hbu : b ∈ u.rows := by
            rw [hudef, dedup_some_of_missing hmiss]
            exact hb
          exact hcopy hbu

/-- C1, counterexample to the unconditional claim: when a dedup key column
is missing from the batch, deduplicate degrades to a pass-through and the
second merge appends the batch again (3 rows, changed = true) instead of
returning the 2-row merged master with changed = false. -/
theorem merge_idempotence_fails_on_missing_key :
    (merge_with_master ⟨["k"], [], []⟩ ⟨["x"], [[("x", Value.num 1)]]⟩
        (some (merge_with_master ⟨["k"], [], []⟩ ⟨["x"], [[("x", Value.num 1)]]⟩
          (some ⟨["k"], [[("k", Value.num 1)]]⟩)).1)).2 = true ∧
    (merge_with_master ⟨["k"], [], []⟩ ⟨["x"], [[("x", Value.num 1)]]⟩
        (some (merge_with_master ⟨["k"], [], []⟩ ⟨["x"], [[("x", Value.num 1)]]⟩
          (some ⟨["k"], [[("k", Value.num 1)]]⟩)).1)).1.rows.length = 3 ∧
    (merge_with_master ⟨["k"], [], []⟩ ⟨["x"], [[("x", Value.num 1)]]⟩
        (some ⟨["k"], [[("k", Value.num 1)]]⟩)).1.rows.length = 2 := by
  decide

theorem merge_with_master_idempotent_witness :
    merge_with_master ⟨["k"], [], []⟩ ⟨["k"], [[("k", Value.num 1)]]⟩
        (some (merge_with_master ⟨["k"], [], []⟩ ⟨["k"], [[("k", Value.num 1)]]⟩ none).1)
      = ((merge_with_master ⟨["k"], [], []⟩ ⟨["k"], [[("k", Value.num 1)]]⟩ none).1, false) :=
  merge_with_master_idempotent ⟨["k"], [], []⟩ none ⟨["k"], [[("k", Value.num 1)]]⟩
    (by decide) (by unfold DataFrame.Wf; decide) (fun df h => Option.noConfusion h) (by decide)
    (fun c0 h => Option.noConfusion h) (fun c0 h => Option.noConfusion h)

theorem keysMatch_get {keys : List String} {r m : Row} {c : String}
    (h : keysMatch keys r m = true) (hc : c ∈ keys) : Row.get r c = Row.get m c := by
  rw [keysMatch, List.all_eq_true] at h
  have := h c hc
  exact of_decide_eq_true this

/-- C2 (amended): deduplicate computes exactly the anti-join of the rounded
batch against the full rounded master — including under the 90-day window
narrowing — provided every key column exists on both sides and, whenever
the narrowing can fire, the first date column is itself a key column and
every rounded batch row carries a proper date there; consequently a batch
whose every row already has a key match in the master leaves the master
unchanged with changed = false. -/
theorem deduplicate_exact_anti_join (mgr : Manager) (B M : DataFrame)
    (hkB : ∀ c ∈ mgr.keyColumns, c ∈ B.cols)
    (hkM : ∀ c ∈ mgr.keyColumns, c ∈ M.cols)
    (hwin : ∀ c0, mgr.dateColumns.head? = some c0 → c0 ∈ B.cols → c0 ∈ M.cols →
      M.rows.length > 10000 →
      c0 ∈ mgr.keyColumns ∧
        ∀ r ∈ (apply_numeric_rounding mgr.numericRounding B).rows,
          ∃ d, Row.get r c0 = Value.date d) :
    (deduplicate mgr B (some M)).rows
      = (apply_numeric_rounding mgr.numericRounding B).rows.filter
          (fun r => !((apply_numeric_rounding mgr.numericRounding M).rows.any
            (fun mr => keysMatch mgr.keyColumns r mr))) ∧
    ((∀ r ∈ (apply_numeric_rounding mgr.numericRounding B).rows,
        (apply_numeric_rounding mgr.numericRounding M).rows.any
          (fun mr => keysMatch mgr.keyColumns r mr) = true) →
      merge_with_master mgr B (some M) = (M, false)) := by
  have hmiss : missingKeys mgr.keyColumns
      (apply_numeric_rounding mgr.numericRounding B)
      (filterMaster mgr (apply_numeric_rounding mgr.numericRounding B)
        (apply_numeric_rounding mgr.numericRounding M)) = [] := by
    apply missingKeys_nil
    · intro c hc
      rw [apply_cols]
      exact hkB c hc
    · intro c hc
      rw [filterMaster_cols, apply_cols]
      exact hkM c hc
  have hanyeq : ∀ r ∈ (apply_numeric_rounding mgr.numericRounding B).rows,
      ((filterMaster mgr (apply_numeric_rounding mgr.numericRounding B)
          (apply_numeric_rounding mgr.numericRounding M)).rows.any
        (fun mr => keysMatch mgr.keyColumns r mr))
      = ((apply_numeric_rounding mgr.numericRounding M).rows.any
        (fun mr => keysMatch mgr.keyColumns r mr)) := by
    intro r hr
    rcases filterMaster_shape mgr (apply_numeric_rounding mgr.numericRounding B)
        (apply_numeric_rounding mgr.numericRounding M) with hsh |
        ⟨c0, rest, hdc, hlen, hca, hcb, hsh⟩
    · rw [hsh]
    · rw [hsh]
      have hca' : c0 ∈ B.cols := by rw [apply_cols] at hca; exact hca
      have hcb' : c0 ∈ M.cols := by rw [apply_cols] at hcb; exact hcb
      have hlen' : M.rows.length > 10000 := by rw [apply_len] at hlen; exact hlen
      obtain ⟨hc0key, hdates⟩ := hwin c0 (by rw [hdc]; rfl) hca' hcb' hlen'
      rcases hany : ((apply_numeric_rounding mgr.numericRounding M).rows.any
          (fun mr => keysMatch mgr.keyColumns r mr)) with _ | _
      · rcases hany2 : (List.filter (windowPass c0
            (minDate (apply_numeric_rounding mgr.numericRounding B) c0))
              (apply_numeric_rounding mgr.numericRounding M).rows).any
            (fun mr => keysMatch mgr.keyColumns r mr) with _ | _
        · rfl
        · obtain ⟨mr, hmr, hkm⟩ := List.any_eq_true.mp hany2
          have : mr ∈ (apply_numeric_rounding mgr.numericRounding M).rows :=
            (List.mem_filter.mp hmr).1
          have : ((apply_numeric_rounding mgr.numericRounding M).rows.any
              (fun mr => keysMatch mgr.keyColumns r mr)) = true :=
            List.any_eq_true.mpr ⟨mr, this, hkm⟩
          rw [hany] at this
          cases this
      · obtain ⟨mr, hmr, hkm⟩ := List.any_eq_true.mp hany
        obtain ⟨d, hd⟩ := hdates r hr
        have hmrd : Row.get mr c0 = Value.date d := by
          rw [← keysMatch_get hkm hc0key, hd]
        obtain ⟨mm, hmm, hle⟩ := minDateList_le hr hd
        have hpass : windowPass c0
            (minDate (apply_numeric_rounding mgr.numericRounding B) c0) mr = true := by
          simp only [windowPass, minDate, hmm, hmrd]
          have : mm - 90 ≤ d := by omega
          simp [this]
        refine (List.any_eq_true.mpr ⟨mr, List.mem_filter.mpr ⟨hmr, hpass⟩, hkm⟩)
  constructor
  · rw [dedup_some_of_keys hmiss]
    exact List.filter_congr (by
      intro r hr
      rw [hanyeq r hr])
  · intro hall
    apply merge_some_of_empty
    rw [dedup_some_of_keys hmiss]
    refine List.filter_eq_nil_iff.mpr ?_
    intro r hr
    rw [hanyeq r hr] at *
    simp [hanyeq r hr, hall r hr]

theorem deduplicate_exact_anti_join_witness :
    (deduplicate ⟨["k"], [], []⟩ ⟨["k"], [[("k", Value.num 1)]]⟩
        (some ⟨["k"], [[("k", Value.num 2)]]⟩)).rows
      = (apply_numeric_rounding [] ⟨["k"], [[("k", Value.num 1)]]⟩).rows.filter
          (fun r => !((apply_numeric_rounding [] ⟨["k"], [[("k", Value.num 2)]]⟩).rows.any
            (fun mr => keysMatch ["k"] r mr))) ∧
    ((∀ r ∈ (apply_numeric_rounding [] (⟨["k"], [[("k", Value.num 1)]]⟩ : DataFrame)).rows,
        (apply_numeric_rounding [] (⟨["k"], [[("k", Value.num 2)]]⟩ : DataFrame)).rows.any
          (fun mr => keysMatch ["k"] r mr) = true) →
      merge_with_master ⟨["k"], [], []⟩ ⟨["k"], [[("k", Value.num 1)]]⟩
          (some ⟨["k"], [[("k", Value.num 2)]]⟩) = (⟨["k"], [[("k", Value.num 2)]]⟩, false)) :=
  deduplicate_exact_anti_join ⟨["k"], [], []⟩ ⟨["k"], [[("k", Value.num 1)]]⟩
    ⟨["k"], [[("k", Value.num 2)]]⟩ (by decide) (by decide)
    (fun c0 h => Option.noConfusion h)

theorem apply_nil (df : DataFrame) : apply_numeric_rounding [] df = df := by
  cases df with
  | mk cols rows =>
    show DataFrame.mk cols (rows.map (fun r => r)) = DataFrame.mk cols rows
    rw [List.map_id']

theorem any_replicate_false {α : Type} {p : α → Bool} {a : α} (h : p a = false) (n : ℕ) :
    (List.replicate n a).any p = false := by
  induction n with
  | zero => rfl
  | succ n ih => simp [List.replicate_succ, h, ih]

theorem filter_replicate_false {α : Type} {p : α → Bool} {a : α} (h : p a = false) (n : ℕ) :
    (List.replicate n a).filter p = [] := by
  induction n with
  | zero => rfl
  | succ n ih => simp [List.replicate_succ, h, ih]

def mgrC2 : Manager := ⟨["k"], [], ["dt"]⟩

def dupRowC2 : Row := [("k", Value.num 1), ("dt", Value.date 0)]

def fillerRowC2 : Row := [("k", Value.num 0), ("dt", Value.date (-1000))]

def masterC2 : DataFrame := ⟨["k", "dt"], dupRowC2 :: List.replicate 10000 fillerRowC2⟩

def batchRowC2 : Row := [("k", Value.num 1), ("dt", Value.date 1000)]

def batchC2 : DataFrame := ⟨["k", "dt"], [batchRowC2]⟩

theorem masterC2_len : masterC2.rows.length = 10001 := by
  show (dupRowC2 :: List.replicate 10000 fillerRowC2).length = 10001
  rw [List.length_cons, List.length_replicate]

/-- C2, counterexample: with a master of 10001 rows whose duplicate of the
batch record lies more than 90 days before the earliest batch date (and the
date column not among the key columns), the window narrowing hides the
duplicate: the batch row survives deduplication and re-merging grows the
master, although its dedup key occurs in the full master. -/
theorem dedup_window_misses_old_duplicate :
    ((apply_numeric_rounding mgrC2.numericRounding masterC2).rows.any
       (fun mr => keysMatch mgrC2.keyColumns batchRowC2 mr)) = true ∧
    (deduplicate mgrC2 batchC2 (some masterC2)).rows = [batchRowC2] ∧
    (merge_with_master mgrC2 batchC2 (some masterC2)).1.rows.length = 10002 := by
  have happly : apply_numeric_rounding mgrC2.numericRounding masterC2 = masterC2 :=
    apply_nil masterC2
  have happlyB : apply_numeric_rounding mgrC2.numericRounding batchC2 = batchC2 :=
    apply_nil batchC2
  have h1 : ((apply_numeric_rounding mgrC2.numericRounding masterC2).rows.any
       (fun mr => keysMatch mgrC2.keyColumns batchRowC2 mr)) = true := by
    rw [happly]
    show (dupRowC2 :: List.replicate 10000 fillerRowC2).any _ = true
    rw [List.any_cons]
    have hd : keysMatch mgrC2.keyColumns batchRowC2 dupRowC2 = true := by decide
    rw [hd, Bool.true_or]
  have hfil : filterMaster mgrC2 (apply_numeric_rounding mgrC2.numericRounding batchC2)
      (apply_numeric_rounding mgrC2.numericRounding masterC2)
      = { masterC2 with rows := ([] : List Row) } := by
    rw [happly, happlyB]
    have heq : filterMaster mgrC2 batchC2 masterC2
        = { masterC2 with
            rows := masterC2.rows.filter (windowPass "dt" (minDate batchC2 "dt")) } := by
      refine filterMaster_eq_of rfl ?_ (by decide) (by decide)
      rw [masterC2_len]
      norm_num
    rw [heq]
    have hmin : minDate batchC2 "dt" = some 1000 := by decide
    rw [hmin]
    have hrows : masterC2.rows.filter (windowPass "dt" (some 1000)) = ([] : List Row) := by
      show (dupRowC2 :: List.replicate 10000 fillerRowC2).filter _ = _
      rw [List.filter_cons]
      have hdup : windowPass "dt" (some 1000) dupRowC2 = false := by decide
      have hfill : windowPass "dt" (some 1000) fillerRowC2 = false := by decide
      rw [hdup]
      rw [filter_replicate_false hfill 10000]
      rfl
    rw [hrows]
  have hdedup : (deduplicate mgrC2 batchC2 (some masterC2)).rows = [batchRowC2] := by
    have hmiss : missingKeys mgrC2.keyColumns
        (apply_numeric_rounding mgrC2.numericRounding batchC2)
        (filterMaster mgrC2 (apply_numeric_rounding mgrC2.numericRounding batchC2)
          (apply_numeric_rounding mgrC2.numericRounding masterC2)) = [] := by
      rw [hfil, happlyB]
      decide
    rw [dedup_some_of_keys hmiss]
    dsimp only
    rw [hfil, happlyB]
    show List.filter _ [batchRowC2] = [batchRowC2]
    rw [List.filter_cons]
    simp only [List.any_nil, Bool.not_false, if_true, List.filter_nil]
  refine ⟨h1, hdedup, ?_⟩
  have hne : (deduplicate mgrC2 batchC2 (some masterC2)).rows ≠ [] := by
    rw [hdedup]
    exact List.cons_ne_nil _ _
  rw [merge_some_of_ne hne]
  show (masterC2.rows ++ (deduplicate mgrC2 batchC2 (some masterC2)).rows).length = 10002
  rw [List.length_append, masterC2_len, hdedup]
  rfl

/-- C3: whenever a master file already exists, any executed trace of
save_master_data that contains the destructive write starts with a
successful backup copy: the snapshot happens-before the overwrite. -/
theorem backup_happens_before_overwrite (fails : FsOp → Bool)
    (h : FsOp.writeMaster ∈ (save_master_data fails true).1) :
    (save_master_data fails true).1.head? = some FsOp.backupCopy ∧
      fails FsOp.backupCopy = false := by
  unfold save_master_data save_master_data_body at h ⊢
  rcases h1 : fails FsOp.backupCopy
  · rcases h2 : fails FsOp.mkdir
    · rcases h3 : fails FsOp.writeMaster <;> simp [h1, h2, h3] at h ⊢
    · simp [h1, h2] at h ⊢
  · simp [h1] at h

theorem backup_happens_before_overwrite_witness :
    (save_master_data (fun _ => false) true).1.head? = some FsOp.backupCopy ∧
      (fun _ : FsOp => false) FsOp.backupCopy = false :=
  backup_happens_before_overwrite (fun _ => false) (by decide)

/-- C4 (amended): an I/O failure inside the try block of save_master_data
is caught by the catch-all handler and surfaces only as the return value
false, with the trace of operations executed so far; it never propagates. -/
theorem save_master_data_catches (fails : FsOp → Bool) (masterExists : Bool)
    (tr : List FsOp)
    (h : save_master_data_body fails masterExists = Except.error tr) :
    save_master_data fails masterExists = (tr, false) := by
  unfold save_master_data
  rw [h]

theorem save_master_data_catches_witness :
    save_master_data (fun op => op == FsOp.writeMaster) true
      = ([FsOp.backupCopy, FsOp.mkdir, FsOp.writeMaster], false) :=
  save_master_data_catches (fun op => op == FsOp.writeMaster) true
    [FsOp.backupCopy, FsOp.mkdir, FsOp.writeMaster] rfl

/-- C4, counterexample to the claim as stated: a raising write aborts the
try block with an exception, yet save_master_data returns (trace, false)
instead of letting the exception reach the caller. -/
theorem save_failure_not_fatal :
    save_master_data_body (fun op => op == FsOp.writeMaster) true
      = Except.error [FsOp.backupCopy, FsOp.mkdir, FsOp.writeMaster] ∧
    save_master_data (fun op => op == FsOp.writeMaster) true
      = ([FsOp.backupCopy, FsOp.mkdir, FsOp.writeMaster], false) := by
  exact ⟨rfl, rfl⟩

/-- C9: a missing master file and a failed read both yield the None
cold-start sentinel, and merging against None inserts the whole (rounded)
batch with changed = true. -/
theorem load_none_and_cold_insert (mgr : Manager) (convert : Option (Value → Value))
    (o : LoadOutcome) (B : DataFrame)
    (ho : o = LoadOutcome.missing ∨ o = LoadOutcome.readError)
    (hB : B.rows ≠ []) :
    load_master_data mgr convert o = none ∧
      merge_with_master mgr B none
        = (apply_numeric_rounding mgr.numericRounding B, true) := by
  constructor
  · rcases ho with h | h <;> rw [h] <;> rfl
  · have hne : (deduplicate mgr B none).rows ≠ [] := by
      rw [dedup_none, apply_rows]
      simp [List.map_eq_nil_iff, hB]
    rw [merge_none_of_ne hne, dedup_none]

theorem load_none_and_cold_insert_witness :
    load_master_data ⟨["k"], [], []⟩ none LoadOutcome.missing = none ∧
      merge_with_master ⟨["k"], [], []⟩ ⟨["k"], [[("k", Value.num 1)]]⟩ none
        = (apply_numeric_rounding [] ⟨["k"], [[("k", Value.num 1)]]⟩, true) :=
  load_none_and_cold_insert ⟨["k"], [], []⟩ none LoadOutcome.missing
    ⟨["k"], [[("k", Value.num 1)]]⟩ (Or.inl rfl) (by decide)

theorem presentStr_some {o : Option String} {s : String} (h : presentStr o = some s) :
    s ≠ "" ∧ o = some s := by
  cases o with
  | none => cases h
  | some t =>
    unfold presentStr at h
    dsimp only at h
    by_cases ht : strStrip t ≠ ""
    · rw [if_pos ht] at h
      injection h with he
      subst he
      refine ⟨?_, rfl⟩
      intro he0
      subst he0
      exact ht rfl
    · rw [if_neg ht] at h
      cases h

/-- Step A+B of the resolver on a record whose ticker is present and whose
normalized ticker hits the override table: the full result of
get_full_stock_info_override in closed form. -/
theorem get_full_stock_info_override_of_hit
    (ticker sn mk : Option String) (sd : Option ℤ) (t0 key sname mkt : String)
    (h1 : presentStr ticker = some t0)
    (hkey : normalize_ticker t0 = key)
    (hkeyne : key ≠ "")
    (hsn : get_stock_name_override key sd = some sname)
    (hsname_ne : sname ≠ "")
    (hmk2 : get_market_override key = some mkt) :
    get_full_stock_info_override ticker sn mk sd true
      = (some key, some sname,
          if optTruthy (presentStr mk) then presentStr mk else some mkt) := by
  unfold get_full_stock_info_override
  rw [h1]
  dsimp only
  rw [hkey, hsn, hmk2]
  have hguard : optTruthy (some key) = true := by
    simp [optTruthy, hkeyne]
  simp [hsname_ne, hguard]

theorem lookup_info_facts {n : String} {info : StockInfo}
    (h : List.lookup n TICKER_TO_STOCK_INFO_MAPPING = some info) :
    info.stock_name ≠ "" ∧ strStrip info.stock_name = info.stock_name ∧
      info.market ≠ "" := by
  by_cases e1 : n = "SGI"
  · subst e1
    have h' : (some (⟨"Somnigroup", "NYSE"⟩ : StockInfo)) = some info := by
      rw [← h]
      rfl
    injection h' with h''
    subst h''
    exact ⟨by decide, by decide, by decide⟩
  · by_cases e2 : n = "TPX"
    · subst e2
      have h' : (some (⟨"Somnigroup", "NYSE"⟩ : StockInfo)) = some info := by
        rw [← h]
        rfl
      injection h' with h''
      subst h''
      exact ⟨by decide, by decide, by decide⟩
    · by_cases e3 : n = "HA"
      · subst e3
        have h' : (some (⟨"Hawaiian Holdings, Inc.", "NASDAQ"⟩ : StockInfo))
            = some info := by
          rw [← h]
          rfl
        injection h' with h''
        subst h''
        exact ⟨by decide, by decide, by decide⟩
      · exfalso
        have b1 : (n == "SGI") = false := by simp [e1]
        have b2 : (n == "TPX") = false := by simp [e2]
        have b3 : (n == "HA") = false := by simp [e3]
        rw [TICKER_TO_STOCK_INFO_MAPPING] at h
        simp [List.lookup, b1, b2, b3] at h

/-- Closed form of get_full_stock_info_override on a record whose ticker is
present and whose normalized ticker hits the override table: the ticker is
normalized, the stock name is taken from the table, and the market is the
record's own when truthy, else the table's. -/
theorem get_full_stock_info_override_hit_tuple
    (ticker sn mk : Option String) (sd : Option ℤ) (t0 : String) (info : StockInfo)
    (h1 : presentStr ticker = some t0)
    (h2 : List.lookup (normalize_ticker t0) TICKER_TO_STOCK_INFO_MAPPING = some info) :
    get_full_stock_info_override ticker sn mk sd true
      = (some (normalize_ticker t0), some info.stock_name,
          if optTruthy (presentStr mk) then presentStr mk else some info.market) := by
  by_cases e1 : normalize_ticker t0 = "SGI"
  · rw [e1] at h2
    have h' : (some (⟨"Somnigroup", "NYSE"⟩ : StockInfo)) = some info := by
      rw [← h2]
      rfl
    injection h' with h''
    subst h''
    rw [e1]
    exact get_full_stock_info_override_of_hit ticker sn mk sd t0 "SGI" "Somnigroup"
      "NYSE" h1 e1 (by decide) rfl (by decide) rfl
  · by_cases e2 : normalize_ticker t0 = "TPX"
    · rw [e2] at h2
      have h' : (some (⟨"Somnigroup", "NYSE"⟩ : StockInfo)) = some info := by
        rw [← h2]
        rfl
      injection h' with h''
      subst h''
      rw [e2]
      exact get_full_stock_info_override_of_hit ticker sn mk sd t0 "TPX" "Somnigroup"
        "NYSE" h1 e2 (by decide) rfl (by decide) rfl
    · by_cases e3 : normalize_ticker t0 = "HA"
      · rw [e3] at h2
        have h' : (some (⟨"Hawaiian Holdings, Inc.", "NASDAQ"⟩ : StockInfo))
            = some info := by
          rw [← h2]
          rfl
        injection h' with h''
        subst h''
        rw [e3]
        exact get_full_stock_info_override_of_hit ticker sn mk sd t0 "HA"
          "Hawaiian Holdings, Inc." "NASDAQ" h1 e3 (by decide) rfl (by decide) rfl
      · exfalso
        have b1 : (normalize_ticker t0 == "SGI") = false := by simp [e1]
        have b2 : (normalize_ticker t0 == "TPX") = false := by simp [e2]
        have b3 : (normalize_ticker t0 == "HA") = false := by simp [e3]
        rw [TICKER_TO_STOCK_INFO_MAPPING] at h2
        simp [List.lookup, b1, b2, b3] at h2

/-- One dataframe row as seen by apply_stock_name_overrides; none is a NaN
cell. The market column is taken to be present. -/
structure StockRecord where
  ticker : Option String
  stock_name : Option String
  market : Option String
  settlement : Option ℤ
deriving DecidableEq, Repr

/-- The blank-cell test used throughout needs_processing:
pd.isna(x), or str(x).strip() is the empty string or the string None. -/
def cellEmpty (o : Option String) : Bool :=
  match o with
  | none => true
  | some s => decide (strStrip s = "" ∨ strStrip s = "None")

/-- str(ticker).strip().upper() is a key of OLD_TO_NEW_TICKER_MAPPING. -/
def oldTickerHit (o : Option String) : Bool :=
  match o with
  | none => false
  | some s => (List.lookup (strUpper (strStrip s)) OLD_TO_NEW_TICKER_MAPPING).isSome

/-- Some pattern of STOCK_NAME_TO_TICKER_MAPPING occurs upper-cased in the
stripped upper-cased stock name. -/
def namePatternHit (o : Option String) : Bool :=
  match o with
  | none => false
  | some s => STOCK_NAME_TO_TICKER_MAPPING.any
      (fun p => substrB (strUpper p.1) (strUpper (strStrip s)))

/-- normalize_ticker(str(ticker).strip().upper()) is a key of
TICKER_TO_STOCK_INFO_MAPPING. -/
def infoTickerHit (o : Option String) : Bool :=
  match o with
  | none => false
  | some s =>
    (List.lookup (normalize_ticker (strUpper (strStrip s)))
      TICKER_TO_STOCK_INFO_MAPPING).isSome

/-- The needs_processing mask of apply_stock_name_overrides, with the market
column present: a row is processed only when the ticker or the stock name is
blank, the ticker is an old ticker, the stock name matches a rename pattern,
or the market is blank while the ticker is in the override table. -/
def needs_processing (rec : StockRecord) : Bool :=
  cellEmpty rec.ticker || cellEmpty rec.stock_name
    || (!cellEmpty rec.ticker && oldTickerHit rec.ticker)
    || (!cellEmpty rec.stock_name && namePatternHit rec.stock_name)
    || (!cellEmpty rec.ticker && cellEmpty rec.market && infoTickerHit rec.ticker)

/-- Write-back guard for the ticker cell: NaN, blank, or different
(upper-cased) from the resolved ticker. -/
def tkUpdateCond (o : Option String) (t' : String) : Bool :=
  match o with
  | none => true
  | some s => decide (strStrip s = "" ∨ strUpper (strStrip s) ≠ t')

/-- Write-back guard for the stock-name cell: NaN, blank, the string None,
or different from the resolved name. -/
def snUpdateCond (o : Option String) (n' : String) : Bool :=
  match o with
  | none => true
  | some s => decide (strStrip s = "" ∨ strStrip s = "None" ∨ strStrip s ≠ n')

/-- The per-row body of apply_stock_name_overrides' update loop: resolve
through get_full_stock_info_override with normalize_stock_name=True, then
write each cell back under its guard; the market cell is only written when
it is blank. -/
def apply_stock_name_overrides_row (rec : StockRecord) : StockRecord :=
  if needs_processing rec then
    match get_full_stock_info_override rec.ticker rec.stock_name rec.market
        rec.settlement true with
    | (nt, nsn, nmk) =>
      let ticker' :=
        match nt with
        | some t' =>
          if t' ≠ "" ∧ tkUpdateCond rec.ticker t' = true then some t' else rec.ticker
        | none => rec.ticker
      let stock_name' :=
        match nsn with
        | some n' =>
          if n' ≠ "" ∧ snUpdateCond rec.stock_name n' = true then some n'
          else rec.stock_name
        | none => rec.stock_name
      let market' :=
        match nmk with
        | some m' =>
          if m' ≠ "" ∧ cellEmpty rec.market = true then some m' else rec.market
        | none => rec.market
      ⟨ticker', stock_name', market', rec.settlement⟩
  else rec

/-- apply_stock_name_overrides over the whole frame: early return when no row
needs processing, else the per-row update applied to the masked rows; rows
outside the mask are untouched, so the loop acts as the pointwise map. -/
def apply_stock_name_overrides (records : List StockRecord) : List StockRecord :=
  if records.all (fun r => !needs_processing r) then records
  else records.map apply_stock_name_overrides_row

/-- A fully populated row that the needs_processing mask skips although its
ticker HA is in the override table. -/
def recMaskedC5 : StockRecord :=
  ⟨some "HA", some "Hawaiian Airlines", some "NASDAQ", none⟩

/-- A processed row: old ticker TPX, a renamable stock name and no market. -/
def recHitC5 : StockRecord :=
  ⟨some "TPX", some "Tempur Sealy International", none, none⟩

/-- C5 (amended): dataframe-level override application is the pointwise
per-row update; a row whose ticker, stock name and market are all non-blank,
whose ticker is not an old ticker and whose stock name matches no rename
pattern is skipped by the needs_processing mask and kept verbatim — even
when its ticker is in the override table; and on a processed row whose
present ticker normalizes to a table key, the resulting stock name equals
the table's name up to stripping (so it is overwritten whenever it differs),
while the market is kept whenever non-blank and only filled from the table
when the cell is missing. -/
theorem apply_overrides_mask_and_market
    (records : List StockRecord) (rec : StockRecord) :
    apply_stock_name_overrides records
        = records.map apply_stock_name_overrides_row ∧
    (cellEmpty rec.ticker = false → cellEmpty rec.stock_name = false →
      cellEmpty rec.market = false → oldTickerHit rec.ticker = false →
      namePatternHit rec.stock_name = false →
      apply_stock_name_overrides_row rec = rec) ∧
    (∀ t0 info, needs_processing rec = true →
      presentStr rec.ticker = some t0 →
      List.lookup (normalize_ticker t0) TICKER_TO_STOCK_INFO_MAPPING = some info →
      (∃ s, (apply_stock_name_overrides_row rec).stock_name = some s ∧
        strStrip s = info.stock_name) ∧
      (cellEmpty rec.market = false →
        (apply_stock_name_overrides_row rec).market = rec.market) ∧
      (rec.market = none →
        (apply_stock_name_overrides_row rec).market = some info.market)) := by
  refine ⟨?_, ?_, ?_⟩
  · unfold apply_stock_name_overrides
    by_cases hall : (records.all fun r => !needs_processing r) = true
    · rw [if_pos hall]
      have hpt : ∀ r ∈ records, apply_stock_name_overrides_row r = r := by
        intro r hr
        have h := List.all_eq_true.mp hall r hr
        have hnp : needs_processing r = false := by
          cases hv : needs_processing r
          · rfl
          · rw [hv] at h
            exact absurd h (by decide)
        unfold apply_stock_name_overrides_row
        rw [if_neg (by rw [hnp]; exact Bool.false_ne_true)]
      have hmap : records.map apply_stock_name_overrides_row = records := by
        rw [List.map_congr_left hpt, List.map_id']
      exact hmap.symm
    · rw [if_neg hall]
  · intro h1 h2 h3 h4 h5
    have hnp : needs_processing rec = false := by
      unfold needs_processing
      rw [h1, h2, h3, h4, h5]
      rfl
    unfold apply_stock_name_overrides_row
    rw [if_neg (by rw [hnp]; exact Bool.false_ne_true)]
  · intro t0 info hnp h1 h2
    obtain ⟨hsne, hsstrip, hmne⟩ := lookup_info_facts h2
    have happ := get_full_stock_info_override_hit_tuple rec.ticker rec.stock_name
      rec.market rec.settlement t0 info h1 h2
    unfold apply_stock_name_overrides_row
    rw [if_pos hnp, happ]
    dsimp only
    refine ⟨?_, ?_, ?_⟩
    · by_cases hc : snUpdateCond rec.stock_name info.stock_name = true
      · rw [if_pos ⟨hsne, hc⟩]
        exact ⟨info.stock_name, rfl, hsstrip⟩
      · rw [if_neg (fun hh => hc hh.2)]
        cases hsn : rec.stock_name with
        | none => exact absurd rfl (hsn ▸ hc)
        | some s =>
          have hcs : ¬(strStrip s = "" ∨ strStrip s = "None" ∨
              strStrip s ≠ info.stock_name) := by
            intro hor
            exact (hsn ▸ hc) (decide_eq_true hor)
          push_neg at hcs
          obtain ⟨-, -, heq⟩ := hcs
          exact ⟨s, rfl, heq⟩
    · intro hme
      rcases hn : (if optTruthy (presentStr rec.market) then presentStr rec.market
          else some info.market) with _ | m'
      · rfl
      · dsimp only
        rw [if_neg (fun hh => Bool.false_ne_true (hme ▸ hh.2))]
    · intro hmn
      rw [hmn]
      have e1 : (if optTruthy (presentStr (none : Option String))
          then presentStr (none : Option String) else some info.market)
            = some info.market := rfl
      rw [e1]
      dsimp only
      rw [if_pos ⟨hmne, rfl⟩]

theorem apply_overrides_mask_and_market_witness :
    apply_stock_name_overrides [recMaskedC5, recHitC5]
        = [recMaskedC5, recHitC5].map apply_stock_name_overrides_row ∧
    apply_stock_name_overrides_row recMaskedC5 = recMaskedC5 ∧
    (∃ s, (apply_stock_name_overrides_row recHitC5).stock_name = some s ∧
      strStrip s = (StockInfo.mk "Somnigroup" "NYSE").stock_name) ∧
    (apply_stock_name_overrides_row recHitC5).market
        = some (StockInfo.mk "Somnigroup" "NYSE").market :=
  ⟨(apply_overrides_mask_and_market [recMaskedC5, recHitC5] recMaskedC5).1,
   (apply_overrides_mask_and_market [recMaskedC5, recHitC5] recMaskedC5).2.1
     (by decide) (by decide) (by decide) (by decide) (by decide),
   ((apply_overrides_mask_and_market [recMaskedC5, recHitC5] recHitC5).2.2 "TPX"
     ⟨"Somnigroup", "NYSE"⟩ (by decide) (by decide) (by decide)).1,
   ((apply_overrides_mask_and_market [recMaskedC5, recHitC5] recHitC5).2.2 "TPX"
     ⟨"Somnigroup", "NYSE"⟩ (by decide) (by decide) (by decide)).2.2 rfl⟩

/-- C5, counterexample to the unconditional-replacement claim: (a) the fully
populated row (HA, Hawaiian Airlines, NASDAQ) fails the needs_processing
mask and survives apply_stock_name_overrides byte-identical — its stock name
is kept although HA is in the override table; (b) at the row-resolver level,
a record with ticker TPX (normalized to SGI) and non-empty market TSE keeps
TSE; the table's NYSE is not written, although the stock name is replaced. -/
theorem override_not_unconditional :
    needs_processing ⟨some "HA", some "Hawaiian Airlines", some "NASDAQ", none⟩
        = false ∧
    apply_stock_name_overrides
        [⟨some "HA", some "Hawaiian Airlines", some "NASDAQ", none⟩]
      = [⟨some "HA", some "Hawaiian Airlines", some "NASDAQ", none⟩] ∧
    (List.lookup (normalize_ticker "HA") TICKER_TO_STOCK_INFO_MAPPING).isSome
        = true ∧
    get_full_stock_info_override (some "TPX") (some "Tempur Sealy International")
        (some "TSE") none true = (some "SGI", some "Somnigroup", some "TSE") ∧
    (get_full_stock_info_override (some "TPX") (some "Tempur Sealy International")
        (some "TSE") none true).2.2 ≠ some "NYSE" := by
  decide

theorem foldl_min_mem (f : TxRecord → ℤ) (a : TxRecord) (ts : List TxRecord) :
    ts.foldl (fun best x => if f x < f best then x else best) a ∈ a :: ts := by
  induction ts generalizing a with
  | nil => simp
  | cons b ts ih =>
    simp only [List.foldl_cons]
    by_cases hb : f b < f a
    · rw [if_pos hb]
      have := ih b
      rcases List.mem_cons.mp this with h | h
      · rw [h]
        simp
      · simp [h]
    · rw [if_neg hb]
      have := ih a
      rcases List.mem_cons.mp this with h | h
      · rw [h]
        simp
      · simp [h]

theorem argminDateDistance_mem {target : ℤ} {l : List TxRecord} {t : TxRecord}
    (h : argminDateDistance target l = some t) : t ∈ l := by
  cases l with
  | nil => cases h
  | cons a ts =>
    injection h with he
    rw [← he]
    exact foldl_min_mem (dateDistance target) a ts

/-- C7: a candidate selected by the fuzzy transaction inference always lies
inside the settlement-date tolerance window — a row whose date differs from
the target by more than the tolerance is never chosen, whatever its price
and quantity. -/
theorem fuzzy_match_within_tolerance (tol : ℤ) (ptol : ℚ) (targetDate : ℤ)
    (qty price : Option ℚ) (ledger : List TxRecord) (t : TxRecord)
    (h : transaction_inference_best_match tol ptol targetDate qty price ledger = some t) :
    ∃ d, t.settlement = some d ∧ |d - targetDate| ≤ tol := by
  unfold transaction_inference_best_match at h
  dsimp only at h
  split_ifs at h
  have hmem : t ∈ ((ledger.filter (dateWindowOk tol targetDate)).filter
      (qtyOk qty)).filter (priceOk ptol price) := argminDateDistance_mem h
  have h1 : t ∈ ledger.filter (dateWindowOk tol targetDate) :=
    (List.mem_filter.mp ((List.mem_filter.mp hmem).1)).1
  have hW : dateWindowOk tol targetDate t = true := (List.mem_filter.mp h1).2
  cases ht : t.settlement with
  | none => rw [dateWindowOk, ht] at hW; cases hW
  | some d =>
    rw [dateWindowOk, ht] at hW
    have hc := of_decide_eq_true hW
    exact ⟨d, rfl, abs_le.mpr ⟨by omega, by omega⟩⟩

theorem fuzzy_match_within_tolerance_witness :
    ∃ d, (TxRecord.mk (some "SOFI") (some "SoFi Technologies") (some 1)
        (some 100) (some (mkRat 501 10))).settlement = some d ∧ |d - 0| ≤ 7 :=
  fuzzy_match_within_tolerance 7 (mkRat 1 100) 0 (some 100) (some 50)
    [⟨some "SOFI", some "SoFi Technologies", some 1, some 100, some (mkRat 501 10)⟩]
    ⟨some "SOFI", some "SoFi Technologies", some 1, some 100, some (mkRat 501 10)⟩
    (by decide)

/-! ## Cell access through column assignment and drop -/

theorem get_of_not_any {r : Row} {c : String} (h : r.any (fun p => p.1 = c) = false) :
    Row.get r c = Value.null := by
  induction r with
  | nil => rfl
  | cons p r ih =>
    rw [List.any_cons] at h
    rcases Bool.or_eq_false_iff.mp h with ⟨h1, h2⟩
    obtain ⟨a, w⟩ := p
    have ha : a ≠ c := by simpa using h1
    rw [Row.get, if_neg ha]
    exact ih h2

theorem get_map_set (r : Row) (c : String) (v : Value) (c' : String) :
    Row.get (r.map (fun p => if p.1 = c then (c, v) else p)) c'
      = if c' = c then (if r.any (fun p => p.1 = c) then v else Value.null)
        else Row.get r c' := by
  induction r with
  | nil =>
    by_cases h : c' = c <;> simp [Row.get, h]
  | cons p r ih =>
    obtain ⟨a, w⟩ := p
    rw [List.map_cons]
    by_cases hc' : c' = c
    · subst hc'
      rw [if_pos rfl]
      by_cases hac : a = c'
      · have hh : (if (a, w).1 = c' then (c', v) else (a, w)) = (c', v) := by
          simp [hac]
        rw [hh, Row.get, if_pos rfl]
        have hany : ((a, w) :: r).any (fun p => p.1 = c') = true := by
          simp [List.any_cons, hac]
        rw [hany]
        simp
      · have hh : (if (a, w).1 = c' then (c', v) else (a, w)) = (a, w) := by
          simp [hac]
        rw [hh, Row.get, if_neg hac, ih, if_pos rfl]
        have hany : ((a, w) :: r).any (fun p => p.1 = c')
            = (r.any fun p => decide (p.1 = c')) := by
          simp [List.any_cons, hac]
        rw [hany]
    · rw [if_neg hc']
      by_cases hac : a = c
      · have hh : (if (a, w).1 = c then (c, v) else (a, w)) = (c, v) := by
          simp [hac]
        have hac' : ¬ a = c' := fun h => hc' (by rw [← h, hac])
        rw [hh, Row.get, if_neg (fun h => hc' h.symm), ih, if_neg hc', Row.get,
          if_neg hac']
      · have hh : (if (a, w).1 = c then (c, v) else (a, w)) = (a, w) := by
          simp [hac]
        rw [hh]
        by_cases hca : a = c'
        · rw [Row.get, if_pos hca, Row.get, if_pos hca]
        · rw [Row.get, if_neg hca, ih, if_neg hc', Row.get, if_neg hca]

theorem get_append_single (r : Row) (c : String) (v : Value) (c' : String) :
    Row.get (r ++ [(c, v)]) c'
      = if r.any (fun p => p.1 = c') then Row.get r c'
        else (if c = c' then v else Value.null) := by
  induction r with
  | nil => simp [Row.get]
  | cons p r ih =>
    obtain ⟨a, w⟩ := p
    by_cases hac : a = c'
    · subst hac
      simp [Row.get, List.any_cons]
    · rw [List.cons_append, Row.get, if_neg hac, ih, Row.get, if_neg hac]
      rw [List.any_cons]
      have hb : (decide ((a, w).1 = c') || r.any fun p => decide (p.1 = c'))
          = (r.any fun p => decide (p.1 = c')) := by
        simp [hac]
      rw [hb]

theorem get_set_self (r : Row) (c : String) (v : Value) :
    Row.get (Row.set r c v) c = v := by
  unfold Row.set
  by_cases h : r.any (fun p => p.1 = c) = true
  · rw [if_pos h, get_map_set, if_pos rfl, h]
    simp
  · have hf : r.any (fun p => p.1 = c) = false := by
      rcases hb : r.any (fun p => p.1 = c) with _ | _
      · rfl
      · exact absurd hb h
    rw [if_neg (by rw [hf]; exact Bool.false_ne_true), get_append_single, hf]
    simp

theorem get_set_ne (r : Row) (c : String) (v : Value) {c' : String} (h : c' ≠ c) :
    Row.get (Row.set r c v) c' = Row.get r c' := by
  unfold Row.set
  by_cases ha : r.any (fun p => p.1 = c) = true
  · rw [if_pos ha, get_map_set, if_neg h]
  · have hf : r.any (fun p => p.1 = c) = false := by
      rcases hb : r.any (fun p => p.1 = c) with _ | _
      · rfl
      · exact absurd hb ha
    rw [if_neg (by rw [hf]; exact Bool.false_ne_true), get_append_single]
    by_cases ha' : r.any (fun p => p.1 = c') = true
    · rw [ha']
      simp
    · have hf' : r.any (fun p => p.1 = c') = false := by
        rcases hb : r.any (fun p => p.1 = c') with _ | _
        · rfl
        · exact absurd hb ha'
      rw [hf', get_of_not_any hf']
      simp only [Bool.false_eq_true, if_false]
      rw [if_neg (fun he => h he.symm)]

theorem get_filter_ne (r : Row) (c : String) {c' : String} (h : c' ≠ c) :
    Row.get (r.filter (fun p => p.1 ≠ c)) c' = Row.get r c' := by
  induction r with
  | nil => rfl
  | cons p r ih =>
    obtain ⟨a, w⟩ := p
    rw [List.filter_cons]
    by_cases hac : a = c
    · have hg : (decide ((a, w).1 ≠ c)) = false := by simp [hac]
      rw [hg]
      simp only [Bool.false_eq_true, if_false]
      rw [ih, Row.get, if_neg (fun he : a = c' => h (he ▸ hac))]
    · have hg : (decide ((a, w).1 ≠ c)) = true := by simp [hac]
      rw [hg]
      simp only [if_true]
      by_cases hca : a = c'
      · rw [Row.get, if_pos hca, Row.get, if_pos hca]
      · rw [Row.get, if_neg hca, ih, Row.get, if_neg hca]

/-! ## Aggregation claims -/

def rowC6a : Row :=
  [("trade_date", Value.date 1), ("settlement_date", Value.date 3),
   ("ticker", Value.str "A"), ("trade_type", Value.str "BUY"),
   ("price_usd", Value.num 100), ("quantity", Value.num 10)]

def rowC6b : Row :=
  [("trade_date", Value.date 1), ("settlement_date", Value.date 3),
   ("ticker", Value.str "A"), ("trade_type", Value.str "BUY"),
   ("price_usd", Value.num 103), ("quantity", Value.num 5)]

def dfC6 : DataFrame :=
  ⟨["trade_date", "settlement_date", "ticker", "trade_type", "price_usd", "quantity"],
   [rowC6a, rowC6b]⟩

/-- C6, counterexample: at the default price rounding (1 decimal) the
spec's two fragments (qty 10 at 100.0 and qty 5 at 103.0) fall into
different grouping buckets — the rounded price is itself part of the group
key — so they stay two separate rows with their own prices instead of one
record with quantity 15 and price 101. -/
theorem weighted_fragments_not_merged_at_default_rounding :
    (aggregate_split_transactions dfC6 none none 1).rows.map
        (fun r => (Row.get r "quantity", Row.get r "price_usd"))
      = [(Value.num 10, Value.num 100), (Value.num 5, Value.num 103)] ∧
    (aggregate_split_transactions dfC6 none none 1).rows.length = 2 := by
  decide

/-- C6 (amended): when the price rounding puts both fragments in the same
bucket (price_round_decimals = -1 rounds both 100.0 and 103.0 to 100),
they aggregate into a single record with quantity 15 and price exactly
101 = (100·10 + 103·5) / 15, computed from the unrounded prices. -/
theorem weighted_average_fragments_merge_when_bucketed :
    (aggregate_split_transactions dfC6 none none (-1)).rows.map
        (fun r => (Row.get r "quantity", Row.get r "price_usd"))
      = [(Value.num 15, Value.num 101)] ∧
    (aggregate_split_transactions dfC6 none none (-1)).rows.length = 1 := by
  decide

def rowC8a : Row :=
  [("trade_date", Value.date 1), ("settlement_date", Value.date 3),
   ("ticker", Value.str "A"), ("trade_type", Value.str "BUY"),
   ("price_usd", Value.num (mkRat 10001 100)), ("quantity", Value.num 1)]

def rowC8b : Row :=
  [("trade_date", Value.date 1), ("settlement_date", Value.date 3),
   ("ticker", Value.str "A"), ("trade_type", Value.str "BUY"),
   ("price_usd", Value.num (mkRat 10004 100)), ("quantity", Value.num (-1))]

def dfC8 : DataFrame :=
  ⟨["trade_date", "settlement_date", "ticker", "trade_type", "price_usd", "quantity"],
   [rowC8a, rowC8b]⟩

def rowC8c : Row :=
  [("trade_date", Value.date 1), ("settlement_date", Value.date 3),
   ("ticker", Value.str "A"), ("trade_type", Value.str "BUY"),
   ("price_usd", Value.num 100), ("quantity", Value.num 1)]

def rowC8d : Row :=
  [("trade_date", Value.date 1), ("settlement_date", Value.date 3),
   ("ticker", Value.str "A"), ("trade_type", Value.str "BUY"),
   ("price_usd", Value.num 100), ("quantity", Value.num (-1))]

def dfC8n : DataFrame :=
  ⟨["trade_date", "settlement_date", "ticker", "trade_type", "price_usd", "quantity"],
   [rowC8c, rowC8d]⟩

/-- C8, counterexample: a group whose quantities cancel to zero gets price
-inf (float division -0.03 / 0) — a non-null sentinel, not null; the price
is null only when the weighted sum is zero as well (0/0). No exception is
raised in either case. -/
theorem zero_quantity_price_can_be_infinite :
    (aggregate_split_transactions dfC8 none none 1).rows.map
        (fun r => (Row.get r "quantity", Row.get r "price_usd"))
      = [(Value.num 0, Value.ninf)] ∧
    (aggregate_split_transactions dfC8n none none 1).rows.map
        (fun r => (Row.get r "quantity", Row.get r "price_usd"))
      = [(Value.num 0, Value.null)] := by
  decide

theorem mem_setColumn_cols {df : DataFrame} {c : String} (c' : String) (f : Row → Value)
    (h : c ∈ df.cols) : c ∈ (setColumn df c' f).cols := by
  unfold setColumn
  by_cases hc' : c' ∈ df.cols
  · rw [if_pos hc']
    exact h
  · rw [if_neg hc']
    exact List.mem_append_left _ h

theorem divVal_zero_den (w : Value) :
    divVal w (Value.num 0) = Value.null ∨ divVal w (Value.num 0) = Value.pinf ∨
      divVal w (Value.num 0) = Value.ninf := by
  rcases w with q | s | d | _ | _ | _
  · have e1 : divVal (Value.num q) (Value.num 0)
        = if (0 : ℚ) = 0 then
            (if q = 0 then Value.null else if 0 < q then Value.pinf else Value.ninf)
          else Value.num (qDiv q 0) := rfl
    by_cases h0 : q = 0
    · left
      rw [e1, if_pos rfl, if_pos h0]
    · by_cases hp : 0 < q
      · right
        left
        rw [e1, if_pos rfl, if_neg h0, if_pos hp]
      · right
        right
        rw [e1, if_pos rfl, if_neg h0, if_neg hp]
  · left
    rfl
  · left
    rfl
  · left
    rfl
  · right
    left
    have e2 : divVal Value.pinf (Value.num 0)
        = if (0 : ℚ) < 0 then Value.ninf else Value.pinf := rfl
    rw [e2, if_neg (lt_irrefl (0 : ℚ))]
  · right
    right
    have e3 : divVal Value.ninf (Value.num 0)
        = if (0 : ℚ) < 0 then Value.pinf else Value.ninf := rfl
    rw [e3, if_neg (lt_irrefl (0 : ℚ))]

theorem aggregateFinish_zero_qty (agg : DataFrame) (r : Row)
    (hr : r ∈ (aggregateFinish agg true).rows)
    (hq : Row.get r "quantity" = Value.num 0) :
    Row.get r "price_usd" = Value.null ∨ Row.get r "price_usd" = Value.pinf ∨
      Row.get r "price_usd" = Value.ninf := by
  have hr' : r ∈ (if "_price_usd_rounded" ∈ (dropColumn
        (setColumn agg "price_usd"
          (fun a => divVal (Row.get a "_weighted_price") (Row.get a "quantity")))
        "_weighted_price").cols then
      dropColumn (dropColumn
        (setColumn agg "price_usd"
          (fun a => divVal (Row.get a "_weighted_price") (Row.get a "quantity")))
        "_weighted_price") "_price_usd_rounded"
    else dropColumn
        (setColumn agg "price_usd"
          (fun a => divVal (Row.get a "_weighted_price") (Row.get a "quantity")))
        "_weighted_price").rows := hr
  have main : ∀ s ∈ (dropColumn
      (setColumn agg "price_usd"
        (fun a => divVal (Row.get a "_weighted_price") (Row.get a "quantity")))
      "_weighted_price").rows,
      Row.get s "quantity" = Value.num 0 →
      Row.get s "price_usd" = Value.null ∨ Row.get s "price_usd" = Value.pinf ∨
        Row.get s "price_usd" = Value.ninf := by
    intro s hs hsq
    obtain ⟨s1, hs1, hseq⟩ := List.mem_map.mp hs
    obtain ⟨a, ha, haeq⟩ := List.mem_map.mp hs1
    have hprice : Row.get s "price_usd"
        = divVal (Row.get a "_weighted_price") (Row.get a "quantity") := by
      rw [← hseq, get_filter_ne _ _ (by decide), ← haeq, get_set_self]
    have hqty : Row.get s "quantity" = Row.get a "quantity" := by
      rw [← hseq, get_filter_ne _ _ (by decide), ← haeq, get_set_ne _ _ _ (by decide)]
    rw [hqty] at hsq
    rw [hprice, hsq]
    exact divVal_zero_den _
  by_cases hc : "_price_usd_rounded" ∈ (dropColumn
      (setColumn agg "price_usd"
        (fun a => divVal (Row.get a "_weighted_price") (Row.get a "quantity")))
      "_weighted_price").cols
  · rw [if_pos hc] at hr'
    obtain ⟨s, hs, hseq⟩ := List.mem_map.mp hr'
    have hq' : Row.get s "quantity" = Value.num 0 := by
      rw [← get_filter_ne s "_price_usd_rounded"
        (show "quantity" ≠ "_price_usd_rounded" by decide), hseq, hq]
    have hres := main s hs hq'
    have hpe : Row.get r "price_usd" = Row.get s "price_usd" := by
      rw [← hseq, get_filter_ne _ _ (by decide)]
    rw [hpe]
    exact hres
  · rw [if_neg hc] at hr'
    exact main r hr' hq

/-- C8 (amended): under the weighted-average path (price_usd among the
group keys and present together with quantity in the frame), every
aggregated row whose summed quantity is zero carries a price that is null
or a signed infinity — the float division never raises and never produces
a finite non-null sentinel.  It is null exactly when the weighted sum is
zero or null as well, and a signed infinity otherwise (see the
counterexample theorem for both concrete outcomes). -/
theorem aggregate_zero_qty_group (df : DataFrame) (gk sc : Option (List String)) (dec : ℤ)
    (hpk : "price_usd" ∈ gk.getD defaultGroupKeys)
    (hpc : "price_usd" ∈ df.cols) (hqc : "quantity" ∈ df.cols)
    (r : Row) (hr : r ∈ (aggregate_split_transactions df gk sc dec).rows)
    (hq : Row.get r "quantity" = Value.num 0) :
    Row.get r "price_usd" = Value.null ∨ Row.get r "price_usd" = Value.pinf ∨
      Row.get r "price_usd" = Value.ninf := by
  by_cases hdf : df.rows.length = 0
  · unfold aggregate_split_transactions at hr
    rw [if_pos hdf] at hr
    rw [List.length_eq_zero] at hdf
    rw [hdf] at hr
    cases hr
  · unfold aggregate_split_transactions at hr
    rw [if_neg hdf] at hr
    dsimp only at hr
    have hek : "price_usd" ∈ (gk.getD defaultGroupKeys).filter (fun c => c ∈ df.cols) :=
      List.mem_filter.mpr ⟨hpk, by simpa using hpc⟩
    have hekne : (gk.getD defaultGroupKeys).filter (fun c => c ∈ df.cols) ≠ [] := by
      intro h0
      rw [h0] at hek
      cases hek
    rw [if_neg hekne] at hr
    rw [decide_eq_true hek, decide_eq_true hpc] at hr
    simp only [Bool.true_and, reduceIte] at hr
    rw [decide_eq_true (mem_setColumn_cols "_price_usd_rounded"
        (fun a => roundCell dec (Row.get a "price_usd")) hpc),
      decide_eq_true (mem_setColumn_cols "_price_usd_rounded"
        (fun a => roundCell dec (Row.get a "price_usd")) hqc)] at hr
    simp only [Bool.true_and, Bool.and_self, reduceIte] at hr
    exact aggregateFinish_zero_qty _ r hr hq

def rowC8out : Row :=
  [("trade_date", Value.date 1), ("settlement_date", Value.date 3),
   ("ticker", Value.str "A"), ("trade_type", Value.str "BUY"),
   ("quantity", Value.num 0), ("price_usd", Value.ninf)]

theorem aggregate_zero_qty_group_witness :
    Row.get rowC8out "price_usd" = Value.null ∨
      Row.get rowC8out "price_usd" = Value.pinf ∨
      Row.get rowC8out "price_usd" = Value.ninf :=
  aggregate_zero_qty_group dfC8 none none 1 (by decide) (by decide) (by decide)
    rowC8out (by decide) (by decide)

theorem chainR_lookup {cfg : List (String × ℤ)} {c : String} {d : ℤ}
    (hnodup : (cfg.map Prod.fst).Nodup) (hl : List.lookup c cfg = some d)
    {cols : List String} (hc : c ∈ cols) (v : Value) :
    chainR cfg cols c v = roundVal d v := by
  induction cfg generalizing v with
  | nil => cases hl
  | cons q cfg ih =>
    obtain ⟨qc, qd⟩ := q
    rw [List.map_cons] at hnodup
    have hqmem := (List.nodup_cons.mp hnodup).1
    have hnd := (List.nodup_cons.mp hnodup).2
    rw [chainR_cons]
    by_cases hqc : qc = c
    · subst hqc
      have hd : d = qd := by
        rw [List.lookup, beq_self_eq_true] at hl
        injection hl with h
        exact h.symm
      subst hd
      rw [if_pos ⟨rfl, hc⟩]
      exact chainR_not_key (by simpa using hqmem) cols _
    · have hl' : List.lookup c cfg = some d := by
        rw [List.lookup] at hl
        have hne : ¬ c = qc := fun h => hqc h.symm
        have : (c == qc) = false := by
          simp [hne]
        rw [this] at hl
        exact hl
      rw [if_neg (fun h => hqc h.1)]
      exact ih hnd hl' v

theorem dedup_rows_subset {mgr : Manager} {B M : DataFrame} {r : Row}
    (h : r ∈ (deduplicate mgr B (some M)).rows) :
    r ∈ (apply_numeric_rounding mgr.numericRounding B).rows := by
  unfold deduplicate at h
  dsimp only at h
  split_ifs at h
  · exact h
  · exact (List.mem_filter.mp h).1

/-- C10: when the deduplicated batch is non-empty, the merged master is the
original master rows untouched and in order, followed by the surviving
batch rows, and changed is reported true; every appended row is its batch
row with precisely the configured numeric columns coerced and rounded
(roundVal = to_numeric then round), all other columns read unchanged. -/
theorem merge_frame_preserving (mgr : Manager) (M B : DataFrame)
    (hnodup : (mgr.numericRounding.map Prod.fst).Nodup)
    (hu : (deduplicate mgr B (some M)).rows ≠ []) :
    (merge_with_master mgr B (some M)).1.rows
        = M.rows ++ (deduplicate mgr B (some M)).rows ∧
    (merge_with_master mgr B (some M)).2 = true ∧
    ∀ r ∈ (deduplicate mgr B (some M)).rows, ∃ b₀ ∈ B.rows,
      r = roundRowIn mgr.numericRounding B.cols b₀ ∧
      (∀ c, c ∉ mgr.numericRounding.map Prod.fst → Row.get r c = Row.get b₀ c) ∧
      (∀ c d, List.lookup c mgr.numericRounding = some d → c ∈ B.cols →
        Row.get r c = roundVal d (Row.get b₀ c)) := by
  refine ⟨?_, ?_, ?_⟩
  · rw [merge_some_of_ne hu]
    rfl
  · rw [merge_some_of_ne hu]
  · intro r hrr
    have hrB := dedup_rows_subset hrr
    rw [apply_rows] at hrB
    obtain ⟨b₀, hb₀, hbeq⟩ := List.mem_map.mp hrB
    refine ⟨b₀, hb₀, hbeq.symm, ?_, ?_⟩
    · intro c hc
      rw [← hbeq, get_roundRowIn, chainR_not_key hc]
    · intro c d hl hcB
      rw [← hbeq, get_roundRowIn, chainR_lookup hnodup hl hcB]

theorem merge_frame_preserving_witness :
    (merge_with_master ⟨["k"], [("p", 1)], []⟩
        ⟨["k", "p"], [[("k", Value.num 1), ("p", Value.str "x")]]⟩
        (some ⟨["k", "p"], ([] : List Row)⟩)).1.rows
        = ([] : List Row) ++ (deduplicate ⟨["k"], [("p", 1)], []⟩
            ⟨["k", "p"], [[("k", Value.num 1), ("p", Value.str "x")]]⟩
            (some ⟨["k", "p"], ([] : List Row)⟩)).rows ∧
    (merge_with_master ⟨["k"], [("p", 1)], []⟩
        ⟨["k", "p"], [[("k", Value.num 1), ("p", Value.str "x")]]⟩
        (some ⟨["k", "p"], ([] : List Row)⟩)).2 = true ∧
    ∀ r ∈ (deduplicate ⟨["k"], [("p", 1)], []⟩
        ⟨["k", "p"], [[("k", Value.num 1), ("p", Value.str "x")]]⟩
        (some ⟨["k", "p"], ([] : List Row)⟩)).rows,
      ∃ b₀ ∈ [[("k", Value.num 1), ("p", Value.str "x")]],
        r = roundRowIn [("p", 1)] ["k", "p"] b₀ ∧
        (∀ c, c ∉ [("p", (1 : ℤ))].map Prod.fst → Row.get r c = Row.get b₀ c) ∧
        (∀ c d, List.lookup c [("p", (1 : ℤ))] = some d → c ∈ ["k", "p"] →
          Row.get r c = roundVal d (Row.get b₀ c)) :=
  merge_frame_preserving ⟨["k"], [("p", 1)], []⟩ ⟨["k", "p"], ([] : List Row)⟩
    ⟨["k", "p"], [[("k", Value.num 1), ("p", Value.str "x")]]⟩ (by decide) (by decide)
